import Mathlib

/-!
# Shallow embedding of the dbor-cpp decoder kernel

This file embeds the decoding kernel of the dbor-cpp library
(`src/Dbor/Encoding.cpp`, `src/Dbor/Value.cpp`, `src/Dbor/String.cpp`,
`src/Dbor/ValueSequence.cpp`) as executable Lean definitions and proves
properties of them.

Machine integers are modelled as `Nat`; a byte buffer is a `List Nat`
whose elements are `< 256` (the predicate `BytesWF`).  Bitwise C++
operations on unsigned integers are translated to arithmetic on `Nat`:
`x & (2^k - 1)` becomes `x % 2^k`, `x >> k` becomes `x / 2^k`,
`x << k` becomes `x * 2^k`, and `x | y` becomes `x + y` where the two
operands occupy disjoint bit ranges (noted at each use).  Where C++
relies on wrap-around of unsigned arithmetic, the wrap is made explicit.
-/

namespace Dbor

/-- The result codes of `Dbor/ResultCode.hpp` (`enum class ResultCode`). -/
inductive ResultCode where
  | OK
  | APPROX_IMPRECISE
  | APPROX_EXTREME
  | RANGE
  | NO_OBJECT
  | INCOMPATIBLE
  | UNSUPPORTED
  | ILLFORMED
  | INCOMPLETE
deriving DecidableEq, Repr

/-- All bytes of the buffer are in the range of `std::uint8_t`. -/
def BytesWF (p : List Nat) : Prop := ∀ b ∈ p, b < 256

instance : DecidablePred BytesWF := fun p =>
  inferInstanceAs (Decidable (∀ b ∈ p, b < 256))

/-- The unsigned integer with little-endian representation
`p[0] ... p[p.length - 1]` (the loop of `dbor::impl::readUintLeFromBuffer`,
which accumulates `v = (v << 8) | *p--` from the last byte towards the
first). -/
def leVal (p : List Nat) : Nat :=
  p.foldr (fun b acc => acc * 256 + b) 0

/-- `Encoding::sizeOfTokenFromFirstByte` (`Dbor/Encoding.hpp`):
`(b >= 0xE0 || (b < 0xC0 && (b & 0x1F) < 0x18)) ? 1 : 2 + (b & 7)`.
For a byte `b < 256`, `b & 0x1F = b % 32` and `b & 7 = b % 8`. -/
def sizeOfTokenFromFirstByte (b : Nat) : Nat :=
  if 0xE0 ≤ b ∨ (b < 0xC0 ∧ b % 32 < 0x18) then 1 else 2 + b % 8

/-- `d_n` for an `n`-byte NaturalToken: the C++ expression
`ONE_PER_BYTE >> (8u * (sizeof(value) - n))` where `ONE_PER_BYTE` is
`0x0101010101010101` truncated to the width of `T`; numerically it is
`0x0101010101010101 mod 2^(8 n)` for every `n ≤ 8`. -/
def onesPB (n : Nat) : Nat := 0x0101010101010101 % 2 ^ (8 * n)

/-- `dbor::impl::decodeNaturalTokenData<T>` (`Dbor/Encoding.cpp`), with
`w = sizeof(T)` (4 or 8).  Result `(isOk, value)`.
The C++ guard `n - 1u > sizeof(value) - 1u` uses unsigned wrap-around and
is equivalent to `n == 0 || n > sizeof(value)`.
Under the documented precondition `offset <= 0xFEFEFEFE` the quantity
`d = d_n + offset` never exceeds `2^(8 w) - 1`, so the natural-number
subtraction below agrees with the C++ unsigned subtraction
`std::numeric_limits<T>::max() - d`. -/
def decodeNaturalTokenData (w : Nat) (p : List Nat) (n : Nat) (offset : Nat) :
    Bool × Nat :=
  if n = 0 ∨ n > w then (false, 0)
  else
    let v := leVal (p.take n)
    let d := onesPB n + offset
    if v ≤ (2 ^ (8 * w) - 1) - d then (true, v + d) else (false, 0)

/-- The `std::uint16_t` overload `Encoding::decodeNaturalTokenData`
(`Dbor/Encoding.cpp` lines 53-65): decode to 32 bit, then fail with
value `0` if the 32-bit result exceeds `UINT16_MAX`. -/
def decodeNaturalTokenData16 (p : List Nat) (n : Nat) (offset : Nat) :
    Bool × Nat :=
  let r := decodeNaturalTokenData 4 p n offset
  if r.2 > 0xFFFF then (false, 0) else r

theorem leVal_lt (p : List Nat) (h : BytesWF p) : leVal p < 256 ^ p.length := by
  induction p with
  | nil => simp [leVal]
  | cons b t ih =>
    have hb : b < 256 := h b (List.mem_cons_self b t)
    have ht : BytesWF t := fun x hx => h x (List.mem_cons_of_mem b hx)
    have := ih ht
    simp only [leVal, List.foldr_cons, List.length_cons] at *
    have h1 : (t.foldr (fun b acc => acc * 256 + b) 0) * 256 + b
        < (256 ^ t.length) * 256 := by nlinarith
    calc (t.foldr (fun b acc => acc * 256 + b) 0) * 256 + b
        < (256 ^ t.length) * 256 := h1
    _ = 256 ^ (t.length + 1) := by ring

theorem onesPB_eq (n : Nat) (h : n ≤ 8) : onesPB n = (256 ^ n - 1) / 255 := by
  interval_cases n <;> decide

theorem onesPB_le8 (n : Nat) : onesPB n ≤ 0x0101010101010101 :=
  Nat.mod_le _ _

theorem onesPB_le4 (n : Nat) (h : n ≤ 4) : onesPB n ≤ 0x01010101 := by
  interval_cases n <;> decide

theorem onesPB_pos (n : Nat) (h : 0 < n) : 0 < onesPB n := by
  rcases Nat.lt_or_ge n 8 with h8 | h8
  · interval_cases n <;> decide
  · have : onesPB n = 0x0101010101010101 := by
      unfold onesPB
      apply Nat.mod_eq_of_lt
      calc (0x0101010101010101 : Nat) < 2 ^ (8 * 8) := by decide
      _ ≤ 2 ^ (8 * n) := Nat.pow_le_pow_right (by decide) (by omega)
    omega

theorem BytesWF_take (p : List Nat) (n : Nat) (h : BytesWF p) :
    BytesWF (p.take n) := fun b hb => h b (List.mem_of_mem_take hb)

theorem BytesWF_drop (p : List Nat) (n : Nat) (h : BytesWF p) :
    BytesWF (p.drop n) := fun b hb => h b (List.mem_of_mem_drop hb)

theorem leVal_take_lt (p : List Nat) (n : Nat) (hwf : BytesWF p)
    (hn : n ≤ p.length) : leVal (p.take n) < 2 ^ (8 * n) := by
  have h1 : leVal (p.take n) < 256 ^ (p.take n).length :=
    leVal_lt _ (BytesWF_take p n hwf)
  have h2 : (p.take n).length = n := by
    simp [List.length_take]; omega
  rw [h2] at h1
  calc leVal (p.take n) < 256 ^ n := h1
  _ = 2 ^ (8 * n) := by rw [show (256 : Nat) = 2 ^ 8 from rfl, ← pow_mul]

/-- Characterization of a successful / failed decode for `0 < n ≤ w`,
`w ∈ {4, 8}`, `offset ≤ 0xFEFEFEFE`. -/
theorem decodeNaturalTokenData_char (w : Nat) (p : List Nat) (n offset : Nat)
    (hw : w = 4 ∨ w = 8) (hoff : offset ≤ 0xFEFEFEFE)
    (h0 : 0 < n) (hnw : n ≤ w) :
    decodeNaturalTokenData w p n offset =
      if leVal (p.take n) + (onesPB n + offset) ≤ 2 ^ (8 * w) - 1
      then (true, leVal (p.take n) + (onesPB n + offset))
      else (false, 0) := by
  have hd : onesPB n + offset ≤ 2 ^ (8 * w) - 1 := by
    rcases hw with rfl | rfl
    · have := onesPB_le4 n (by omega)
      norm_num
      omega
    · have := onesPB_le8 n
      norm_num
      omega
  unfold decodeNaturalTokenData
  rw [if_neg (by omega)]
  by_cases hle : leVal (p.take n) + (onesPB n + offset) ≤ 2 ^ (8 * w) - 1
  · rw [if_pos hle, if_pos (by omega)]
  · rw [if_neg hle, if_neg (by omega)]

theorem decodeNaturalTokenData_fail_shape (w : Nat) (p : List Nat) (n offset : Nat)
    (h : (decodeNaturalTokenData w p n offset).1 = false) :
    decodeNaturalTokenData w p n offset = (false, 0) := by
  simp only [decodeNaturalTokenData] at h ⊢
  split_ifs at h ⊢ <;> first | rfl | simp at h

/-- C1: `Encoding::decodeNaturalTokenData` for the unsigned target types of
16, 32 and 64 bits.  With `u` the little-endian value of the `n` payload
bytes and `d = (0x0101010101010101 mod 2^(8n)) + offset`:
it fails with output `0` if `n = 0` or `n > sizeof(T)`, fails with output
`0` if `u + d > max(T)`, and succeeds with output `u + d` otherwise;
and the `uint16_t` overload equals the 32-bit decode narrowed: it fails
with output `0` exactly when the 32-bit decode fails or its result
exceeds `0xFFFF`. -/
theorem C1_decodeNaturalTokenData (p : List Nat) (n offset : Nat)
    (hwf : BytesWF p) (hn : n ≤ p.length) (hoff : offset ≤ 0xFEFEFEFE) :
    ((n = 0 ∨ 4 < n) → decodeNaturalTokenData 4 p n offset = (false, 0)) ∧
    (0 < n → n ≤ 4 →
      (2 ^ 32 - 1 < leVal (p.take n) + (0x0101010101010101 % 2 ^ (8 * n) + offset) →
        decodeNaturalTokenData 4 p n offset = (false, 0)) ∧
      (leVal (p.take n) + (0x0101010101010101 % 2 ^ (8 * n) + offset) ≤ 2 ^ 32 - 1 →
        decodeNaturalTokenData 4 p n offset =
          (true, leVal (p.take n) + (0x0101010101010101 % 2 ^ (8 * n) + offset)))) ∧
    ((n = 0 ∨ 8 < n) → decodeNaturalTokenData 8 p n offset = (false, 0)) ∧
    (0 < n → n ≤ 8 →
      (2 ^ 64 - 1 < leVal (p.take n) + (0x0101010101010101 % 2 ^ (8 * n) + offset) →
        decodeNaturalTokenData 8 p n offset = (false, 0)) ∧
      (leVal (p.take n) + (0x0101010101010101 % 2 ^ (8 * n) + offset) ≤ 2 ^ 64 - 1 →
        decodeNaturalTokenData 8 p n offset =
          (true, leVal (p.take n) + (0x0101010101010101 % 2 ^ (8 * n) + offset)))) ∧
    ((n = 0 ∨ 2 < n) → decodeNaturalTokenData16 p n offset = (false, 0)) ∧
    (0 < n → n ≤ 2 →
      (0xFFFF < leVal (p.take n) + (0x0101010101010101 % 2 ^ (8 * n) + offset) →
        decodeNaturalTokenData16 p n offset = (false, 0)) ∧
      (leVal (p.take n) + (0x0101010101010101 % 2 ^ (8 * n) + offset) ≤ 0xFFFF →
        decodeNaturalTokenData16 p n offset =
          (true, leVal (p.take n) + (0x0101010101010101 % 2 ^ (8 * n) + offset)))) ∧
    decodeNaturalTokenData16 p n offset =
      (if (decodeNaturalTokenData 4 p n offset).1 = false
          ∨ 0xFFFF < (decodeNaturalTokenData 4 p n offset).2
       then (false, 0) else decodeNaturalTokenData 4 p n offset) := by
  have honesdef : ∀ m : Nat, 0x0101010101010101 % 2 ^ (8 * m) = onesPB m :=
    fun _ => rfl
  refine ⟨?_, ?_, ?_, ?_, ?_, ?_, ?_⟩
  · intro h
    unfold decodeNaturalTokenData
    rw [if_pos (by omega)]
  · intro h0 h4
    rw [honesdef, decodeNaturalTokenData_char 4 p n offset (Or.inl rfl) hoff h0 h4]
    constructor
    · intro h
      rw [if_neg (by omega)]
    · intro h
      rw [if_pos (by omega)]
  · intro h
    unfold decodeNaturalTokenData
    rw [if_pos (by omega)]
  · intro h0 h8
    rw [honesdef, decodeNaturalTokenData_char 8 p n offset (Or.inr rfl) hoff h0 h8]
    constructor
    · intro h
      rw [if_neg (by omega)]
    · intro h
      rw [if_pos (by omega)]
  · -- 16 bit: n = 0 or n > 2 always fails
    intro h
    simp only [decodeNaturalTokenData16]
    rcases Nat.lt_or_ge 4 n with h4 | h4
    · -- n > 4: 32-bit decode fails
      have hf : decodeNaturalTokenData 4 p n offset = (false, 0) := by
        unfold decodeNaturalTokenData
        rw [if_pos (by omega)]
      rw [hf]
      simp
    · rcases Nat.eq_zero_or_pos n with rfl | h0
      · have hf : decodeNaturalTokenData 4 p 0 offset = (false, 0) := by
          unfold decodeNaturalTokenData
          rw [if_pos (by omega)]
        rw [hf]
        simp
      · -- 2 < n ≤ 4: if the 32-bit decode succeeds its value exceeds 0xFFFF
        have h3 : 3 ≤ n := by omega
        have hpb : 0x010101 ≤ onesPB n := by
          interval_cases n <;> decide
        rw [decodeNaturalTokenData_char 4 p n offset (Or.inl rfl) hoff h0 h4]
        by_cases hle : leVal (p.take n) + (onesPB n + offset) ≤ 2 ^ 32 - 1
        · rw [if_pos hle]
          rw [if_pos (by simp only [Prod.snd]; omega)]
        · rw [if_neg hle]
          simp
  · intro h0 h2
    rw [honesdef]
    have hu : leVal (p.take n) < 2 ^ (8 * n) := leVal_take_lt p n hwf hn
    have hub : leVal (p.take n) ≤ 0xFFFF := by
      have : 2 ^ (8 * n) ≤ 2 ^ 16 := Nat.pow_le_pow_right (by decide) (by omega)
      omega
    have hpb : onesPB n ≤ 0x0101 := by interval_cases n <;> decide
    have hsucc : leVal (p.take n) + (onesPB n + offset) ≤ 2 ^ 32 - 1 := by
      norm_num
      omega
    simp only [decodeNaturalTokenData16]
    rw [decodeNaturalTokenData_char 4 p n offset (Or.inl rfl) hoff h0 (by omega),
        if_pos hsucc]
    constructor
    · intro h
      rw [if_pos (by simp only [Prod.snd]; omega)]
    · intro h
      rw [if_neg (by simp only [Prod.snd]; omega)]
  · -- narrowing relation, unconditionally
    simp only [decodeNaturalTokenData16]
    by_cases hfail : (decodeNaturalTokenData 4 p n offset).1 = false
    · have hr := decodeNaturalTokenData_fail_shape 4 p n offset hfail
      rw [hr]
      simp
    · by_cases hbig : 0xFFFF < (decodeNaturalTokenData 4 p n offset).2
      · rw [if_pos hbig, if_pos (Or.inr hbig)]
      · rw [if_neg hbig, if_neg (fun hor => hor.elim hfail hbig)]

/-- Witness for C1 at the concrete input `p = [0x12]`, `n = 1`,
`offset = 23` (NaturalToken scenario: `0x12 + 1 + 23 = 42`). -/
theorem C1_witness : decodeNaturalTokenData 4 [0x12] 1 23 = (true, 42) := by
  have h := ((C1_decodeNaturalTokenData [0x12] 1 23 (by decide) (by decide)
    (by decide)).2.1 (by decide) (by decide)).2 (by decide)
  have e : leVal ([0x12].take 1) + (0x0101010101010101 % 2 ^ (8 * 1) + 23) = 42 := by
    decide
  rw [e] at h
  exact h

/-- `Encoding::sizeOfValueIn` (`Dbor/Encoding.cpp` lines 12-50).
Byte accesses `p[i]` are modelled as `p.getD i 0`; the caller supplies at
least `capacity` readable bytes.  For a byte `b`:
`(b & 0xF8) == 0xC8` is written `0xC8 ≤ b ∧ b < 0xD0`,
`b & 0x1F` as `b % 32`.  The length decode uses the `std::size_t`
overload of `decodeNaturalTokenData`, i.e. width 8. -/
def sizeOfValueIn (p : List Nat) (capacity : Nat) : Nat :=
  if capacity = 0 then 0
  else
    let firstByte := p.getD 0 0
    let sizeOfFirst := sizeOfTokenFromFirstByte firstByte
    if firstByte < 0x40 ∨ 0xF0 ≤ firstByte ∨ (0xC8 ≤ firstByte ∧ firstByte < 0xD0)
    then
      -- IntegerValue or BinaryRationalValue or NumberlikeValue or NoneValue
      sizeOfFirst
    else if firstByte < 0xD0 then
      -- StringValue or ContainerValue
      if firstByte < 0xC0 ∧ firstByte % 32 < 0x18 then
        sizeOfFirst + firstByte % 32
      else
        let offset := sizeOfFirst + (if firstByte < 0xC0 then 23 else 0)
        let r := decodeNaturalTokenData 8 (p.drop 1) (sizeOfFirst - 1) offset
        if sizeOfFirst ≤ capacity ∧ r.1 then r.2 else 0
    else
      -- DecimalRationalValue
      if capacity ≤ sizeOfFirst then 0
      else
        let firstByteOfSecond := p.getD sizeOfFirst 0
        if 0x40 < firstByteOfSecond then
          sizeOfFirst  -- ill-formed: second token not consumed
        else
          sizeOfFirst + sizeOfTokenFromFirstByte firstByteOfSecond

/-- A `dbor::Value`: non-owning view `(buffer_, size_, isComplete_)`
(`Dbor/Value.hpp`).  A null `buffer_` is `none`; a non-null pointer is
the list of bytes it points at. -/
structure ValueM where
  buffer : Option (List Nat)
  size : Nat
  isComplete : Bool
deriving DecidableEq, Repr

/-- The default constructor `Value::Value()` (`Dbor/Value.cpp` lines 29-34). -/
def valueDefault : ValueM := ⟨none, 0, false⟩

/-- `Value::Value(const uint8_t *buffer, std::size_t capacity)`
(`Dbor/Value.cpp` lines 54-66). -/
def mkValue (buffer : Option (List Nat)) (capacity : Nat) : ValueM :=
  match buffer with
  | some bytes =>
    if capacity ≠ 0 then
      let s := sizeOfValueIn bytes capacity
      if s ≠ 0 ∧ s ≤ capacity then ⟨some bytes, s, true⟩
      else ⟨some bytes, capacity, false⟩
    else ⟨none, 0, false⟩
  | none => ⟨none, 0, false⟩

theorem mkValue_size_le (b : Option (List Nat)) (capacity : Nat) :
    (mkValue b capacity).size ≤ capacity := by
  cases b with
  | none => simp [mkValue]
  | some bytes =>
    simp only [mkValue]
    split_ifs with h1 h2
    · exact h2.2
    · exact Nat.le_refl _
    · exact Nat.zero_le _

theorem mkValue_size_pos (bytes : List Nat) (capacity : Nat) (h : 0 < capacity) :
    0 < (mkValue (some bytes) capacity).size := by
  simp only [mkValue, if_pos (show capacity ≠ 0 by omega)]
  split_ifs with h1
  · show 0 < sizeOfValueIn bytes capacity
    omega
  · show 0 < capacity
    omega

theorem mkValue_buffer_some (bytes : List Nat) (capacity : Nat) (h : 0 < capacity) :
    (mkValue (some bytes) capacity).buffer = some bytes := by
  simp only [mkValue, if_pos (show capacity ≠ 0 by omega)]
  split_ifs with h1 <;> rfl

theorem mkValue_complete (bytes : List Nat) (capacity : Nat)
    (h : (mkValue (some bytes) capacity).isComplete = true) :
    (mkValue (some bytes) capacity).size = sizeOfValueIn bytes capacity ∧
    sizeOfValueIn bytes capacity ≠ 0 ∧ sizeOfValueIn bytes capacity ≤ capacity ∧
    0 < capacity ∧ (mkValue (some bytes) capacity).buffer = some bytes := by
  by_cases hc : capacity ≠ 0
  · simp only [mkValue, if_pos hc] at h ⊢
    split_ifs at h ⊢ with h1
    exact ⟨rfl, h1.1, h1.2, by omega, rfl⟩
  · simp only [mkValue, if_neg hc] at h
    simp at h

/-- C10: invariants of `Value` construction: `buffer() == nullptr` iff
`size() == 0`; `isComplete()` implies `size() > 0`; `size()` never
exceeds the construction capacity; a null buffer yields the empty
incomplete view for any capacity; default construction is the empty
incomplete view. -/
theorem C10_value_invariants (b : Option (List Nat)) (capacity : Nat) :
    (valueDefault.buffer = none ∧ valueDefault.size = 0 ∧
      valueDefault.isComplete = false) ∧
    ((mkValue b capacity).buffer = none ↔ (mkValue b capacity).size = 0) ∧
    ((mkValue b capacity).isComplete = true → 0 < (mkValue b capacity).size) ∧
    (mkValue b capacity).size ≤ capacity ∧
    (b = none → mkValue b capacity = ⟨none, 0, false⟩) := by
  refine ⟨⟨rfl, rfl, rfl⟩, ?_, ?_, mkValue_size_le b capacity, ?_⟩
  · cases b with
    | none => simp [mkValue]
    | some bytes =>
      simp only [mkValue]
      split_ifs with h1 h2 <;> simp_all <;> omega
  · cases b with
    | none => simp [mkValue]
    | some bytes =>
      simp only [mkValue]
      split_ifs with h1 h2 <;> simp_all <;> omega
  · intro hb
    subst hb
    rfl

/-- Witness for C10 at concrete inputs. -/
theorem C10_witness :
    0 < (mkValue (some [0x00]) 1).size ∧ mkValue none 5 = ⟨none, 0, false⟩ :=
  ⟨(C10_value_invariants (some [0x00]) 1).2.2.1 (by decide),
   (C10_value_invariants none 5).2.2.2.2 rfl⟩

/-- C5 (code bug): `Encoding::sizeOfValueIn` tests the follow-up byte of a
DecimalRationalValue with `> 0x40` instead of `>= 0x40`
(`Dbor/Encoding.cpp` line 46), although `0x40` is not an IntegerToken
first byte and `Value::get(int32_t &, int32_t &)` (`Dbor/Value.cpp`
lines 429-431) treats a follow-up byte `>= 0x40` as "not an
IntegerToken".  On `[0xE0, 0x40]` with capacity 2 the code consumes the
second token and returns 2, while the specified behaviour is to return
`s1 = 1` without consuming it. -/
theorem C5_sizeOfValueIn_at_0x40 :
    sizeOfValueIn [0xE0, 0x40] 2 = 2 ∧
    sizeOfTokenFromFirstByte 0xE0 = 1 ∧ ¬ (0x40 < 0x40) := by
  decide

/-- One step state of `ValueSequence::Iterator`
(`Dbor/ValueSequence.hpp`): the current front value and the number of
bytes remaining after it. -/
structure IterM where
  front : ValueM
  remaining : Nat
deriving DecidableEq, Repr

/-- `ValueSequence::Iterator::Iterator(const void *, std::size_t)`
(`Dbor/ValueSequence.cpp` lines 18-22). -/
def iterBegin (buffer : Option (List Nat)) (capacity : Nat) : IterM :=
  let f := mkValue buffer capacity
  ⟨f, if f.buffer ≠ none then capacity - f.size else 0⟩

/-- `ValueSequence::Iterator::operator++`
(`Dbor/ValueSequence.cpp` lines 25-34).  The pointer
`front_.buffer() + front_.size()` is the suffix of the front's buffer
after its size. -/
def iterNext (it : IterM) : IterM :=
  if it.remaining ≠ 0 then
    let f := mkValue (it.front.buffer.map fun l => l.drop it.front.size)
      it.remaining
    ⟨f, it.remaining - f.size⟩
  else
    ⟨⟨none, 0, false⟩, it.remaining⟩

theorem iterNext_reaches_end (n : Nat) :
    ∀ it : IterM, it.remaining < n →
    (it.remaining ≠ 0 → it.front.buffer ≠ none) →
    (iterNext^[n] it).front.buffer = none := by
  induction n with
  | zero => intro it h; omega
  | succ n ih =>
    intro it hlt hinv
    rw [Function.iterate_succ_apply]
    by_cases hr : it.remaining = 0
    · rcases Nat.eq_zero_or_pos n with rfl | hn
      · simp [iterNext, hr]
      · apply ih
        · simp [iterNext, hr]
          omega
        · simp [iterNext, hr]
    · obtain ⟨bytes, hbytes⟩ := Option.ne_none_iff_exists'.mp (hinv hr)
      have hnext : iterNext it =
          ⟨mkValue (some (bytes.drop it.front.size)) it.remaining,
            it.remaining -
              (mkValue (some (bytes.drop it.front.size)) it.remaining).size⟩ := by
        simp [iterNext, hr, hbytes]
      have hpos := mkValue_size_pos (bytes.drop it.front.size) it.remaining
        (by omega)
      apply ih
      · rw [hnext]
        simp only
        omega
      · rw [hnext]
        intro h2
        simp only at h2 ⊢
        rw [mkValue_buffer_some _ _ (by omega)]
        simp

/-- C6: iteration terminates.  For a non-null buffer of length `L`, at
most `L` applications of `operator++` from `begin()` reach the end
sentinel (`front` has a null buffer); each non-ending step constructs a
front of size between 1 and the remaining capacity, so the subtraction
`remainingSize_ -= front_.size()` is exact and never underflows. -/
theorem C6_iterator_terminates (bytes : List Nat) :
    (iterNext^[bytes.length] (iterBegin (some bytes) bytes.length)).front.buffer
      = none ∧
    (∀ (bs : List Nat) (cap : Nat), 1 ≤ cap →
      1 ≤ (mkValue (some bs) cap).size ∧ (mkValue (some bs) cap).size ≤ cap) ∧
    (∀ it : IterM, it.remaining ≠ 0 → it.front.buffer ≠ none →
      (iterNext it).remaining +
        (mkValue (it.front.buffer.map fun l => l.drop it.front.size)
          it.remaining).size = it.remaining) := by
  refine ⟨?_, ?_, ?_⟩
  · rcases Nat.eq_zero_or_pos bytes.length with hlen | hlen
    · rw [hlen]
      simp only [Function.iterate_zero, id]
      simp [iterBegin, mkValue, hlen]
    · apply iterNext_reaches_end
      · -- begin().remaining = L - front.size ≤ L - 1 < L
        have h1 := mkValue_size_pos bytes bytes.length hlen
        simp only [iterBegin]
        split_ifs <;> omega
      · intro h
        simp only [iterBegin]
        rw [mkValue_buffer_some bytes bytes.length hlen]
        simp
  · intro bs cap hcap
    exact ⟨mkValue_size_pos bs cap hcap, mkValue_size_le (some bs) cap⟩
  · intro it hr hb
    obtain ⟨bytes', hbytes⟩ := Option.ne_none_iff_exists'.mp hb
    have hle := mkValue_size_le (some (bytes'.drop it.front.size)) it.remaining
    simp [iterNext, hr, hbytes]
    omega

/-- Witness for C6 at the concrete buffer `[0xFF, 12, 0xFE]` (the
`ValueSequence` example of `Dbor/ValueSequence.hpp`). -/
theorem C6_witness :
    (iterNext^[([0xFF, 12, 0xFE] : List Nat).length]
      (iterBegin (some [0xFF, 12, 0xFE])
        ([0xFF, 12, 0xFE] : List Nat).length)).front.buffer = none ∧
    1 ≤ (mkValue (some [0x00]) 1).size ∧ (mkValue (some [0x00]) 1).size ≤ 1 := by
  have h := C6_iterator_terminates [0xFF, 12, 0xFE]
  exact ⟨h.1, (h.2.1 [0x00] 1 (by decide)).1, (h.2.1 [0x00] 1 (by decide)).2⟩

/-- The descending comparison loop of `Value::compareTo`
(`Dbor/Value.cpp` lines 560-565):
`for (std::size_t i = n - 1u; i > 1; i--)` compares `p[i]` with `q[i]`
for `i = n-1, ..., 2` and returns at the first difference (the early
`return` is modelled by returning the first non-zero comparison). -/
def compareTailFrom (p q : List Nat) : Nat → Int
  | 0 => 0
  | 1 => 0
  | Nat.succ (Nat.succ i) =>
    if p.getD (i + 2) 0 < q.getD (i + 2) 0 then -1
    else if q.getD (i + 2) 0 < p.getD (i + 2) 0 then 1
    else compareTailFrom p q (i + 1)

/-- `Value::compareTo` (`Dbor/Value.cpp` lines 544-570). -/
def compareTo (a b : ValueM) : Int :=
  let n := a.size
  if n = 0 ∨ b.size = 0 then
    (if 0 < n then (1 : Int) else 0) - (if 0 < b.size then (1 : Int) else 0)
  else
    let pa := a.buffer.getD []
    let pb := b.buffer.getD []
    if pa.getD 0 0 < pb.getD 0 0 then -1
    else if pb.getD 0 0 < pa.getD 0 0 then 1
    else if n < b.size then -1
    else if b.size < n then 1
    else
      let t := compareTailFrom pa pb (n - 1)
      if t ≠ 0 then t
      else if a.isComplete = b.isComplete then 0
      else if a.isComplete then 1 else -1

/-- C7 (code bug): the loop of `Value::compareTo` runs only while
`i > 1` and therefore never compares the bytes at index 1.  The two
complete two-byte values `IntegerValue(24) = [0x18, 0x00]` and
`IntegerValue(25) = [0x18, 0x01]` differ at byte index 1, yet
`compareTo` returns 0, contradicting the documented strict total order
(`Dbor/Value.hpp` lines 107-120: result 0 only for equal byte
sequences, and `-1` for `IntegerValue(a)`, `IntegerValue(b)` with
`|a| < |b|`, `a*b ≥ 0`). -/
theorem C7_compareTo_skips_byte_one :
    compareTo (mkValue (some [0x18, 0x00]) 2) (mkValue (some [0x18, 0x01]) 2)
      = 0 ∧
    (mkValue (some [0x18, 0x00]) 2).buffer ≠
      (mkValue (some [0x18, 0x01]) 2).buffer ∧
    (mkValue (some [0x18, 0x00]) 2).isComplete = true ∧
    (mkValue (some [0x18, 0x01]) 2).isComplete = true := by
  decide

/-- The backwards walk of `String::offsetOfLastCodepointIn`
(`Dbor/String.cpp` lines 123-126): decrement `offset` while `n-- > 0`
and `(p[offset] & 0xC0) == 0x80`; the test `(b & 0xC0) == 0x80` is
`b / 64 % 4 = 2`. -/
def walkBackWhileCont (p : List Nat) : Nat → Nat → Nat
  | offset, 0 => offset
  | offset, Nat.succ n =>
    if p.getD offset 0 / 64 % 4 = 2 then walkBackWhileCont p (offset - 1) n
    else offset

/-- `String::offsetOfLastCodepointIn` (`Dbor/String.cpp` lines 117-129). -/
def offsetOfLastCodepointIn (p : Option (List Nat)) (capacity : Nat) : Nat :=
  match p with
  | none => 0
  | some bytes =>
    if capacity = 0 then 0
    else
      let offset := capacity - 1
      let n := if offset < 3 then offset else 3
      walkBackWhileCont bytes offset n

theorem walkBackWhileCont_bounds (p : List Nat) (n offset : Nat) :
    offset - n ≤ walkBackWhileCont p offset n ∧
    walkBackWhileCont p offset n ≤ offset := by
  induction n generalizing offset with
  | zero => simp [walkBackWhileCont]
  | succ n ih =>
    simp only [walkBackWhileCont]
    split_ifs with h
    · have := ih (offset - 1)
      omega
    · omega

/-- C8 counterexample: on the 4-byte slice `[0xBF, 0xBF, 0xBF, 0xBF]`
(all continuation bytes) the function walks back three bytes and
returns `0`, which is below the claimed lower bound
`max(0, |s| - 3) = 1`. -/
theorem C8_counterexample :
    offsetOfLastCodepointIn (some [0xBF, 0xBF, 0xBF, 0xBF]) 4 = 0 ∧
    ¬ (4 - 3 ≤ offsetOfLastCodepointIn (some [0xBF, 0xBF, 0xBF, 0xBF]) 4) := by
  decide

/-- C8 amended: for every byte slice, `offsetOfLastCodepointIn` lies in
`[max(0, |s| - 4), |s| - 1]` when `|s| > 0` (the walk moves back at most
3 bytes from `|s| - 1`), and returns 0 when the slice is empty or the
pointer is null. -/
theorem C8_offsetOfLastCodepointIn_bounds (bytes : List Nat) (capacity : Nat) :
    (0 < capacity →
      capacity - 4 ≤ offsetOfLastCodepointIn (some bytes) capacity ∧
      offsetOfLastCodepointIn (some bytes) capacity ≤ capacity - 1) ∧
    offsetOfLastCodepointIn none capacity = 0 ∧
    offsetOfLastCodepointIn (some bytes) 0 = 0 := by
  refine ⟨?_, rfl, rfl⟩
  intro hpos
  simp only [offsetOfLastCodepointIn, if_neg (by omega : ¬ capacity = 0)]
  have h := walkBackWhileCont_bounds bytes
    (if capacity - 1 < 3 then capacity - 1 else 3) (capacity - 1)
  split_ifs at h ⊢ <;> omega

/-- Witness for C8 at a concrete slice. -/
theorem C8_witness :
    5 - 4 ≤ offsetOfLastCodepointIn (some [0x41, 0x42, 0x43, 0x44, 0x45]) 5 ∧
    offsetOfLastCodepointIn (some [0x41, 0x42, 0x43, 0x44, 0x45]) 5 ≤ 5 - 1 :=
  (C8_offsetOfLastCodepointIn_bounds [0x41, 0x42, 0x43, 0x44, 0x45] 5).1
    (by decide)

/-- A `dbor::String` view (`Dbor/String.hpp`): `(buffer_, size_)`. -/
structure StringM where
  buffer : Option (List Nat)
  size : Nat
deriving DecidableEq, Repr

/-- `String::String()` (`Dbor/String.cpp` lines 135-139). -/
def stringDefault : StringM := ⟨none, 0⟩

/-- `String::String(const uint8_t *, std::size_t)` (`Dbor/String.cpp`
lines 146-150): `buffer_(size ? buffer : nullptr)`,
`size_(buffer ? size : 0)`. -/
def mkString (buffer : Option (List Nat)) (size : Nat) : StringM :=
  ⟨if size ≠ 0 then buffer else none, if buffer ≠ none then size else 0⟩

/-- `Value::get(String &, std::size_t maxSize)`
(`Dbor/Value.cpp` lines 516-541). -/
def getString (v : ValueM) (maxSize : Nat) : ResultCode × StringM :=
  if v.isComplete ≠ true then (.INCOMPLETE, stringDefault)
  else
    let buf := v.buffer.getD []
    let b := buf.getD 0 0
    if b = 0xFF then (.NO_OBJECT, stringDefault)
    else if b < 0x60 ∨ 0x80 ≤ b then (.INCOMPATIBLE, stringDefault)
    else
      let sizeOfFirstToken := sizeOfTokenFromFirstByte b
      if v.size < sizeOfFirstToken then (.INCOMPLETE, stringDefault)
      else
        let stringSize := v.size - sizeOfFirstToken
        if maxSize < stringSize then (.RANGE, stringDefault)
        else (.OK, mkString (some (buf.drop sizeOfFirstToken)) stringSize)

theorem decodeNaturalTokenData_success_ge (w : Nat) (p : List Nat)
    (n offset : Nat) (h : (decodeNaturalTokenData w p n offset).1 = true) :
    onesPB n + offset ≤ (decodeNaturalTokenData w p n offset).2 := by
  simp only [decodeNaturalTokenData] at h ⊢
  split_ifs at h ⊢ <;> simp_all

/-- For a complete string or container value, the whole-value size is at
least the size of the first (header) token. -/
theorem sizeOfValueIn_string_ge (buf : List Nat) (cap : Nat)
    (hb1 : 0x40 ≤ buf.getD 0 0) (hb2 : buf.getD 0 0 < 0xC8)
    (hcap : cap ≠ 0) (hne : sizeOfValueIn buf cap ≠ 0) :
    sizeOfTokenFromFirstByte (buf.getD 0 0) ≤ sizeOfValueIn buf cap := by
  simp only [sizeOfValueIn, if_neg hcap] at hne ⊢
  rw [if_neg (by omega)] at hne ⊢
  rw [if_pos (by omega)] at hne ⊢
  by_cases hinl : buf.getD 0 0 < 0xC0 ∧ buf.getD 0 0 % 32 < 0x18
  · rw [if_pos hinl] at hne ⊢
    omega
  · rw [if_neg hinl] at hne ⊢
    set s1 := sizeOfTokenFromFirstByte (buf.getD 0 0) with hs1
    set off := s1 + (if buf.getD 0 0 < 0xC0 then 23 else 0) with hoff
    set r := decodeNaturalTokenData 8 (buf.drop 1) (s1 - 1) off with hr
    by_cases hok : s1 ≤ cap ∧ r.1
    · rw [if_pos hok] at hne ⊢
      have hge := decodeNaturalTokenData_success_ge 8 (buf.drop 1) (s1 - 1) off
        hok.2
      rw [← hr] at hge
      have : s1 ≤ off := by rw [hoff]; split_ifs <;> omega
      omega
    · rw [if_neg hok] at hne
      omega

/-- C4 counterexample: on the complete `Utf8StringValue` `[0x62, 0x41,
0x42]` (payload "AB", length 2) with `maxSize = 1`, `Value::get(String &,
maxSize)` returns `RANGE` with an empty view; it does not truncate and
does not return `APPROX_EXTREME`. -/
theorem C4_counterexample :
    getString (mkValue (some [0x62, 0x41, 0x42]) 3) 1 =
      (ResultCode.RANGE, ⟨none, 0⟩) ∧
    ResultCode.RANGE ≠ ResultCode.APPROX_EXTREME := by
  decide

/-- C4 amended: for a complete `Utf8StringValue` of payload length
`L = size - headerSize`: if `L ≤ maxSize` the getter returns `OK` and a
borrowed view of the `L` payload bytes; if `L > maxSize` it returns
`RANGE` with the empty view (no truncation). -/
theorem C4_getString (buf : List Nat) (cap maxSize : Nat)
    (hc : (mkValue (some buf) cap).isComplete = true)
    (hb1 : 0x60 ≤ buf.getD 0 0) (hb2 : buf.getD 0 0 < 0x80) :
    ((mkValue (some buf) cap).size - sizeOfTokenFromFirstByte (buf.getD 0 0)
        ≤ maxSize →
      getString (mkValue (some buf) cap) maxSize =
        (ResultCode.OK,
          mkString (some (buf.drop (sizeOfTokenFromFirstByte (buf.getD 0 0))))
            ((mkValue (some buf) cap).size -
              sizeOfTokenFromFirstByte (buf.getD 0 0)))) ∧
    (maxSize < (mkValue (some buf) cap).size -
        sizeOfTokenFromFirstByte (buf.getD 0 0) →
      getString (mkValue (some buf) cap) maxSize =
        (ResultCode.RANGE, ⟨none, 0⟩)) := by
  obtain ⟨hsz, hne, hle, hpos, hbuf⟩ := mkValue_complete buf cap hc
  have hsge : sizeOfTokenFromFirstByte (buf.getD 0 0) ≤
      (mkValue (some buf) cap).size := by
    rw [hsz]
    exact sizeOfValueIn_string_ge buf cap (by omega) (by omega) (by omega) hne
  have hunfold : ∀ c : ResultCode, ∀ s : StringM,
      True := fun _ _ => trivial
  constructor
  · intro hL
    simp only [getString, hc]
    rw [if_neg (by simp), hbuf]
    simp only [Option.getD_some]
    rw [if_neg (by omega), if_neg (by omega), if_neg (by omega),
        if_neg (by omega)]
  · intro hL
    simp only [getString, hc]
    rw [if_neg (by simp), hbuf]
    simp only [Option.getD_some]
    rw [if_neg (by omega), if_neg (by omega), if_neg (by omega),
        if_pos (by omega)]
    rfl

/-- Witness for C4 at concrete inputs: `[0x62, 0x41, 0x42]` is a
complete `Utf8StringValue` with payload `[0x41, 0x42]`. -/
theorem C4_witness :
    getString (mkValue (some [0x62, 0x41, 0x42]) 3) 2 =
      (ResultCode.OK, mkString (some [0x41, 0x42]) 2) ∧
    getString (mkValue (some [0x62, 0x41, 0x42]) 3) 1 =
      (ResultCode.RANGE, ⟨none, 0⟩) := by
  have h := C4_getString [0x62, 0x41, 0x42] 3 2 (by decide) (by decide)
    (by decide)
  have h2 := C4_getString [0x62, 0x41, 0x42] 3 1 (by decide) (by decide)
    (by decide)
  exact ⟨by simpa using h.1 (by decide), by simpa using h2.2 (by decide)⟩

/-- The mathematical value of the IntegerToken starting at `p[0]`
(first byte `< 0x40`), per spec §3: inline values `0x00..0x17` encode
themselves, `0x20..0x37` encode `-(m+1)` with `m = b % 32`; the
non-inline forms append a NaturalToken of `1 + b % 8` payload bytes
whose value is biased by 23, negatives via `u ↦ -(u + 1)`. -/
def integerTokenValue (p : List Nat) : Int :=
  let b := p.getD 0 0
  if b < 0x18 then (b : Int)
  else if b < 0x20 then
    ((leVal ((p.drop 1).take (1 + b % 8)) + onesPB (1 + b % 8) + 23 : Nat) : Int)
  else if b < 0x38 then -(((b % 32 : Nat) : Int) + 1)
  else
    -(((leVal ((p.drop 1).take (1 + b % 8)) + onesPB (1 + b % 8) + 23 : Nat) : Int)
      + 1)

/-- Modelled from the spec: the integer getters `impl::getUnsignedInteger`
and `impl::getSignedInteger` are defined in `Dbor/Value.cpp.inc`, which
is not among the sources (only their declarations and callers are).
This models the "Integer decode" contract of spec §4.3 for a target
type with value range `lo .. hi` (`lo = 0` for the unsigned getters):
an `INCOMPLETE` view yields `(INCOMPLETE, 0)`, an IntegerValue is
clamped to `lo`/`hi` with `APPROX_EXTREME`, MinusZero yields
`(APPROX_IMPRECISE, 0)`, MinusInfinity `(APPROX_EXTREME, lo)`,
Infinity `(APPROX_EXTREME, hi)`, None `(NO_OBJECT, 0)`, anything else
`(INCOMPATIBLE, 0)`.  `p` is the value buffer and `size` the view
size, as passed by `Value::get(std::intN_t &)`. -/
def getIntegerIn (lo hi : Int) (p : List Nat) (size : Nat) : ResultCode × Int :=
  if size = 0 then (.INCOMPLETE, 0)
  else
    let b := p.getD 0 0
    if b < 0x40 then
      if size < sizeOfTokenFromFirstByte b then (.INCOMPLETE, 0)
      else
        let v := integerTokenValue p
        if v < lo then (.APPROX_EXTREME, lo)
        else if hi < v then (.APPROX_EXTREME, hi)
        else (.OK, v)
    else if b = 0xFC then (.APPROX_IMPRECISE, 0)
    else if b = 0xFD then (.APPROX_EXTREME, lo)
    else if b = 0xFE then (.APPROX_EXTREME, hi)
    else if b = 0xFF then (.NO_OBJECT, 0)
    else (.INCOMPATIBLE, 0)

/-- The tail of `Value::get(std::int32_t &, std::int32_t &)` after the
exponent token has been inspected (`Dbor/Value.cpp` lines 429-455):
the ILLFORMED check on the mantissa token, the mantissa decode, and the
exponent-fit checks.  `buffer_[0] & 8` is written `b / 8 % 2 = 1`;
`-static_cast<std::uint32_t>(INT32_MIN)` is `2^31`. -/
def getInt32PairTail (buf : List Nat) (size eAbs fts b : Nat) :
    ResultCode × Int × Int :=
  if size ≤ fts ∨ buf.getD fts 0 = 0 ∨ 0x40 ≤ buf.getD fts 0 then
    (.ILLFORMED, 0, 0)
  else
    let rm := getIntegerIn (-(2 ^ 31)) (2 ^ 31 - 1) (buf.drop fts) (size - fts)
    if b / 8 % 2 = 1 then
      if eAbs ≤ 2 ^ 31 then
        ((if rm.1 = .APPROX_EXTREME then .APPROX_IMPRECISE else rm.1),
          rm.2, -(eAbs : Int))
      else (.UNSUPPORTED, 0, 0)
    else
      if eAbs ≤ 2 ^ 31 - 1 then (rm.1, rm.2, (eAbs : Int))
      else (.UNSUPPORTED, 0, 0)

/-- `Value::get(std::int32_t &mant, std::int32_t &exp10)`
(`Dbor/Value.cpp` lines 373-455).  For `0xD0 ≤ b < 0xF0`,
`(b & 0xF0) == 0xE0` is written `0xE0 ≤ b`.  The mantissa and the
`b < 0x40` path use the spec-modelled `getIntegerIn` in place of the
missing `impl::getSignedInteger`. -/
def getInt32Pair (v : ValueM) : ResultCode × Int × Int :=
  if v.isComplete ≠ true then (.INCOMPLETE, 0, 0)
  else
    let buf := v.buffer.getD []
    let b := buf.getD 0 0
    if b < 0x40 then
      let r := getIntegerIn (-(2 ^ 31)) (2 ^ 31 - 1) buf v.size
      ((if r.1 = .APPROX_EXTREME then .APPROX_IMPRECISE else r.1), r.2, 0)
    else if b < 0xD0 then (.INCOMPATIBLE, 0, 0)
    else if 0xF0 ≤ b then
      if b = 0xFC then (.APPROX_IMPRECISE, 0, 0)
      else if b = 0xFD then (.APPROX_EXTREME, -(2 ^ 31), 2 ^ 31 - 1)
      else if b = 0xFE then (.APPROX_EXTREME, 2 ^ 31 - 1, 2 ^ 31 - 1)
      else if b = 0xFF then (.NO_OBJECT, 0, 0)
      else (.INCOMPATIBLE, 0, 0)
    else if 0xE0 ≤ b then
      getInt32PairTail buf v.size (b % 8 + 1) 1 b
    else
      let fts := 2 + b % 8
      if v.size < fts then (.INCOMPLETE, 0, 0)
      else
        let rd := decodeNaturalTokenData 4 (buf.drop 1) (fts - 1) 8
        getInt32PairTail buf v.size (if rd.1 then rd.2 else 2 ^ 32 - 1) fts b

/-- The size of the first (exponent) token of a DecimalRationalValue, as
computed at `Dbor/Value.cpp` lines 419 and 422. -/
def decFts (buf : List Nat) : Nat :=
  if 0xE0 ≤ buf.getD 0 0 then 1 else 2 + buf.getD 0 0 % 8

/-- The exponent magnitude `|e|` of a DecimalRationalValue, per spec §3:
inline `(b % 8) + 1` for `0xE0 ≤ b`, otherwise the NaturalToken value
of the `1 + b % 8` payload bytes with offset 8. -/
def decExponentAbs (buf : List Nat) : Nat :=
  if 0xE0 ≤ buf.getD 0 0 then buf.getD 0 0 % 8 + 1
  else leVal ((buf.drop 1).take (1 + buf.getD 0 0 % 8)) +
    onesPB (1 + buf.getD 0 0 % 8) + 8

/-- The signed exponent `e` of a DecimalRationalValue (sign in `b & 8`). -/
def decExponent (buf : List Nat) : Int :=
  if buf.getD 0 0 / 8 % 2 = 1 then -(decExponentAbs buf : Int)
  else (decExponentAbs buf : Int)

/-- The `eAbs` value the code computes (`Dbor/Value.cpp` lines 413-427):
inline for `0xE0 ≤ b`; otherwise the 32-bit NaturalToken decode with
offset 8, replaced by `UINT32_MAX` on failure. -/
def eAbsCode (buf : List Nat) : Nat :=
  if 0xE0 ≤ buf.getD 0 0 then buf.getD 0 0 % 8 + 1
  else
    let rd := decodeNaturalTokenData 4 (buf.drop 1) (1 + buf.getD 0 0 % 8) 8
    if rd.1 then rd.2 else 2 ^ 32 - 1

theorem getD_drop (l : List Nat) (i j : Nat) :
    (l.drop i).getD j 0 = l.getD (i + j) 0 := by
  simp [List.getD_eq_getElem?_getD, List.getElem?_drop]

theorem getIntegerIn_token (lo hi : Int) (p : List Nat) (size : Nat)
    (hb : p.getD 0 0 < 0x40)
    (hsz : sizeOfTokenFromFirstByte (p.getD 0 0) ≤ size) :
    getIntegerIn lo hi p size =
      if integerTokenValue p < lo then (.APPROX_EXTREME, lo)
      else if hi < integerTokenValue p then (.APPROX_EXTREME, hi)
      else (.OK, integerTokenValue p) := by
  have h1 : 1 ≤ sizeOfTokenFromFirstByte (p.getD 0 0) := by
    unfold sizeOfTokenFromFirstByte
    split_ifs <;> omega
  simp only [getIntegerIn]
  rw [if_neg (by omega), if_pos hb, if_neg (by omega)]

theorem decFts_pos (buf : List Nat) : 0 < decFts buf := by
  unfold decFts
  split_ifs <;> omega

theorem decExponentAbs_pos (buf : List Nat) : 0 < decExponentAbs buf := by
  unfold decExponentAbs
  split_ifs <;> omega

/-- For a complete value with first byte in `0xD0 .. 0xEF`, constructed
by `Value::Value(buffer, capacity)`: the first token fits strictly
inside the capacity, and the view size is the first-token size alone
(follow-up byte `> 0x40`) or both token sizes (follow-up `≤ 0x40`). -/
theorem decimal_complete_structure (buf : List Nat) (cap : Nat)
    (hc : (mkValue (some buf) cap).isComplete = true)
    (hb1 : 0xD0 ≤ buf.getD 0 0) (hb2 : buf.getD 0 0 < 0xF0) :
    decFts buf < cap ∧
    sizeOfTokenFromFirstByte (buf.getD 0 0) = decFts buf ∧
    ((0x40 < buf.getD (decFts buf) 0 ∧
        (mkValue (some buf) cap).size = decFts buf) ∨
     (buf.getD (decFts buf) 0 ≤ 0x40 ∧
        (mkValue (some buf) cap).size =
          decFts buf + sizeOfTokenFromFirstByte (buf.getD (decFts buf) 0))) := by
  obtain ⟨hsz, hne, hle, hpos, hbuf⟩ := mkValue_complete buf cap hc
  have hfts : sizeOfTokenFromFirstByte (buf.getD 0 0) = decFts buf := by
    unfold sizeOfTokenFromFirstByte decFts
    split_ifs with h1 h2 <;> omega
  have hval : sizeOfValueIn buf cap =
      (if cap ≤ decFts buf then 0
       else if 0x40 < buf.getD (decFts buf) 0 then decFts buf
       else decFts buf + sizeOfTokenFromFirstByte (buf.getD (decFts buf) 0)) := by
    simp only [sizeOfValueIn, if_neg (show ¬ cap = 0 by omega)]
    rw [if_neg (by omega), if_neg (by omega), hfts]
  rw [hval] at hne hle
  rw [hsz, hval]
  by_cases hcap : cap ≤ decFts buf
  · rw [if_pos hcap] at hne
    omega
  · rw [if_neg hcap] at hne hle ⊢
    refine ⟨by omega, hfts, ?_⟩
    by_cases hsnd : 0x40 < buf.getD (decFts buf) 0
    · rw [if_pos hsnd] at hne hle ⊢
      exact Or.inl ⟨hsnd, rfl⟩
    · rw [if_neg hsnd] at hne hle ⊢
      exact Or.inr ⟨by omega, rfl⟩

theorem sizeOfTokenFromFirstByte_pos (b : Nat) :
    1 ≤ sizeOfTokenFromFirstByte b := by
  unfold sizeOfTokenFromFirstByte
  split_ifs <;> omega

/-- The code-level `eAbs` equals the spec-level exponent magnitude, or
both exceed `2^31` (so that the fit checks agree). -/
theorem eAbsCode_spec (buf : List Nat) :
    eAbsCode buf = decExponentAbs buf ∨
      (2 ^ 31 < eAbsCode buf ∧ 2 ^ 31 < decExponentAbs buf) := by
  by_cases hE : 0xE0 ≤ buf.getD 0 0
  · left
    unfold eAbsCode decExponentAbs
    rw [if_pos hE, if_pos hE]
  · simp only [eAbsCode, decExponentAbs]
    rw [if_neg hE, if_neg hE]
    have hb8 : buf.getD 0 0 % 8 < 8 := Nat.mod_lt _ (by omega)
    by_cases h4 : 1 + buf.getD 0 0 % 8 ≤ 4
    · have hch := decodeNaturalTokenData_char 4 (buf.drop 1)
        (1 + buf.getD 0 0 % 8) 8 (Or.inl rfl) (by norm_num) (by omega) h4
      by_cases hle : leVal ((buf.drop 1).take (1 + buf.getD 0 0 % 8)) +
          (onesPB (1 + buf.getD 0 0 % 8) + 8) ≤ 2 ^ 32 - 1
      · have hd1 : (decodeNaturalTokenData 4 (buf.drop 1)
            (1 + buf.getD 0 0 % 8) 8).1 = true := by
          rw [hch, if_pos hle]
        have hd2 : (decodeNaturalTokenData 4 (buf.drop 1)
            (1 + buf.getD 0 0 % 8) 8).2 =
            leVal ((buf.drop 1).take (1 + buf.getD 0 0 % 8)) +
              (onesPB (1 + buf.getD 0 0 % 8) + 8) := by
          rw [hch, if_pos hle]
        left
        rw [if_pos hd1, hd2]
        omega
      · have hd1 : (decodeNaturalTokenData 4 (buf.drop 1)
            (1 + buf.getD 0 0 % 8) 8).1 = false := by
          rw [hch, if_neg hle]
        right
        rw [if_neg (by rw [hd1]; exact Bool.false_ne_true)]
        refine ⟨by norm_num, by omega⟩
    · have hfail : decodeNaturalTokenData 4 (buf.drop 1)
          (1 + buf.getD 0 0 % 8) 8 = (false, 0) := by
        unfold decodeNaturalTokenData
        rw [if_pos (by omega)]
      have hones : 0x0101010101 ≤ onesPB (1 + buf.getD 0 0 % 8) := by
        have h5 : 5 ≤ 1 + buf.getD 0 0 % 8 := by omega
        have h8 : 1 + buf.getD 0 0 % 8 ≤ 8 := by omega
        set k := 1 + buf.getD 0 0 % 8
        interval_cases k <;> decide
      right
      rw [if_neg (by rw [hfail]; exact Bool.false_ne_true)]
      refine ⟨by norm_num, by omega⟩

/-- Behaviour of the decimal tail on a structurally complete
DecimalRationalValue whose mantissa token is an IntegerToken. -/
theorem getInt32PairTail_spec (buf : List Nat) (size fts eAbsC : Nat)
    (hfts : fts = decFts buf)
    (hsz : size = fts + sizeOfTokenFromFirstByte (buf.getD fts 0))
    (hm1 : 0 < buf.getD fts 0) (hm2 : buf.getD fts 0 < 0x40)
    (habs : eAbsC = decExponentAbs buf ∨
      (2 ^ 31 < eAbsC ∧ 2 ^ 31 < decExponentAbs buf)) :
    (-(2 ^ 31) ≤ decExponent buf → decExponent buf ≤ 2 ^ 31 - 1 →
      2 ^ 31 - 1 < integerTokenValue (buf.drop fts) →
      getInt32PairTail buf size eAbsC fts (buf.getD 0 0) =
        ((if decExponent buf < 0 then ResultCode.APPROX_IMPRECISE
          else ResultCode.APPROX_EXTREME), 2 ^ 31 - 1, decExponent buf)) ∧
    (-(2 ^ 31) ≤ decExponent buf → decExponent buf ≤ 2 ^ 31 - 1 →
      integerTokenValue (buf.drop fts) < -(2 ^ 31) →
      getInt32PairTail buf size eAbsC fts (buf.getD 0 0) =
        ((if decExponent buf < 0 then ResultCode.APPROX_IMPRECISE
          else ResultCode.APPROX_EXTREME), -(2 ^ 31), decExponent buf)) ∧
    ((decExponent buf < -(2 ^ 31) ∨ 2 ^ 31 - 1 < decExponent buf) →
      getInt32PairTail buf size eAbsC fts (buf.getD 0 0) =
        (.UNSUPPORTED, 0, 0)) := by
  have htok := sizeOfTokenFromFirstByte_pos (buf.getD fts 0)
  have hnotill : ¬ (size ≤ fts ∨ buf.getD fts 0 = 0 ∨
      0x40 ≤ buf.getD fts 0) := by omega
  have hdg : (buf.drop fts).getD 0 0 = buf.getD fts 0 := by
    rw [getD_drop, Nat.add_zero]
  have hrm := getIntegerIn_token (-(2 ^ 31)) (2 ^ 31 - 1) (buf.drop fts)
    (size - fts) (by rw [hdg]; omega) (by rw [hdg]; omega)
  have hApos := decExponentAbs_pos buf
  simp only [getInt32PairTail, if_neg hnotill, hrm]
  by_cases hs : buf.getD 0 0 / 8 % 2 = 1
  · -- negative exponent
    have he : decExponent buf = -(decExponentAbs buf : Int) := by
      unfold decExponent
      rw [if_pos hs]
    rw [if_pos hs]
    refine ⟨?_, ?_, ?_⟩
    · intro h1 h2 h3
      have heq : eAbsC = decExponentAbs buf := by
        rw [he] at h1
        omega
      rw [if_neg (show ¬ integerTokenValue (buf.drop fts) < -(2 ^ 31) by
            omega),
        if_pos h3,
        if_pos (show eAbsC ≤ 2 ^ 31 by rw [he] at h1; omega),
        if_pos (show decExponent buf < 0 by rw [he]; omega)]
      simp only [reduceIte]
      rw [he, heq]
    · intro h1 h2 h3
      have heq : eAbsC = decExponentAbs buf := by
        rw [he] at h1
        omega
      rw [if_pos h3,
        if_pos (show eAbsC ≤ 2 ^ 31 by rw [he] at h1; omega),
        if_pos (show decExponent buf < 0 by rw [he]; omega)]
      simp only [reduceIte]
      rw [he, heq]
    · intro hor
      have hA : 2 ^ 31 < decExponentAbs buf := by
        rw [he] at hor
        omega
      rw [if_neg (show ¬ eAbsC ≤ 2 ^ 31 by omega)]
  · -- positive exponent
    have he : decExponent buf = (decExponentAbs buf : Int) := by
      unfold decExponent
      rw [if_neg hs]
    rw [if_neg hs]
    refine ⟨?_, ?_, ?_⟩
    · intro h1 h2 h3
      have heq : eAbsC = decExponentAbs buf := by
        rw [he] at h2
        omega
      rw [if_neg (show ¬ integerTokenValue (buf.drop fts) < -(2 ^ 31) by
            omega),
        if_pos h3,
        if_pos (show eAbsC ≤ 2 ^ 31 - 1 by rw [he] at h2; omega),
        if_neg (show ¬ decExponent buf < 0 by rw [he]; omega)]
      rw [he, heq]
    · intro h1 h2 h3
      have heq : eAbsC = decExponentAbs buf := by
        rw [he] at h2
        omega
      rw [if_pos h3,
        if_pos (show eAbsC ≤ 2 ^ 31 - 1 by rw [he] at h2; omega),
        if_neg (show ¬ decExponent buf < 0 by rw [he]; omega)]
      rw [he, heq]
    · intro hor
      have hA : 2 ^ 31 - 1 < decExponentAbs buf := by
        rw [he] at hor
        omega
      rw [if_neg (show ¬ eAbsC ≤ 2 ^ 31 - 1 by omega)]

/-- `Value::get(std::int32_t &, std::int32_t &)` on a complete
DecimalRationalValue reduces to the tail with the code's `eAbs`. -/
theorem getInt32Pair_decimal_reduce (buf : List Nat) (cap : Nat)
    (hc : (mkValue (some buf) cap).isComplete = true)
    (hb1 : 0xD0 ≤ buf.getD 0 0) (hb2 : buf.getD 0 0 < 0xF0)
    (hsge : decFts buf ≤ (mkValue (some buf) cap).size) :
    getInt32Pair (mkValue (some buf) cap) =
      getInt32PairTail buf (mkValue (some buf) cap).size (eAbsCode buf)
        (decFts buf) (buf.getD 0 0) := by
  have hbuf := (mkValue_complete buf cap hc).2.2.2.2
  simp only [getInt32Pair, hc]
  rw [if_neg (by simp), hbuf]
  simp only [Option.getD_some]
  rw [if_neg (by omega), if_neg (by omega), if_neg (by omega)]
  by_cases hE : 0xE0 ≤ buf.getD 0 0
  · rw [if_pos hE,
      show decFts buf = 1 by unfold decFts; rw [if_pos hE],
      show eAbsCode buf = buf.getD 0 0 % 8 + 1 by
        unfold eAbsCode; rw [if_pos hE]]
  · have hfd : decFts buf = 2 + buf.getD 0 0 % 8 := by
      unfold decFts
      rw [if_neg hE]
    rw [if_neg hE, if_neg (by omega),
      show eAbsCode buf =
        (if (decodeNaturalTokenData 4 (buf.drop 1)
              (2 + buf.getD 0 0 % 8 - 1) 8).1
         then (decodeNaturalTokenData 4 (buf.drop 1)
              (2 + buf.getD 0 0 % 8 - 1) 8).2
         else 2 ^ 32 - 1) by
        simp only [eAbsCode, if_neg hE,
          show 2 + buf.getD 0 0 % 8 - 1 = 1 + buf.getD 0 0 % 8 from by omega],
      ← hfd]

/-- C3 counterexample: the complete DecimalRationalValue
`[0xE7, 0x1B, 0xE8, 0xFE, 0xFE, 0x7E]` has exponent `e = +8`
(representable) and mantissa `2^31` (not representable as int32);
the getter returns `APPROX_EXTREME` (clamped mantissa, exponent
preserved), not `APPROX_IMPRECISE` as the claim states for positive
exponents. -/
theorem C3_counterexample :
    getInt32Pair (mkValue (some [0xE7, 0x1B, 0xE8, 0xFE, 0xFE, 0x7E]) 6) =
      (ResultCode.APPROX_EXTREME, 2 ^ 31 - 1, 8) ∧
    integerTokenValue [0x1B, 0xE8, 0xFE, 0xFE, 0x7E] = 2 ^ 31 ∧
    ResultCode.APPROX_EXTREME ≠ ResultCode.APPROX_IMPRECISE := by
  refine ⟨by decide, by decide, by decide⟩

/-- C3 amended: for a complete DecimalRationalValue whose mantissa token
is a non-zero IntegerToken: if the exponent fits int32 and the mantissa
does not, the getter returns the mantissa clamped to `INT32_MAX` /
`INT32_MIN` with the exponent preserved, with code `APPROX_IMPRECISE`
for negative exponents but `APPROX_EXTREME` for positive exponents; if
the exponent does not fit int32 it returns `UNSUPPORTED` with
`(0, 0)`. -/
theorem C3_getInt32Pair (buf : List Nat) (cap : Nat)
    (hc : (mkValue (some buf) cap).isComplete = true)
    (hb1 : 0xD0 ≤ buf.getD 0 0) (hb2 : buf.getD 0 0 < 0xF0)
    (hm1 : 0 < buf.getD (decFts buf) 0)
    (hm2 : buf.getD (decFts buf) 0 < 0x40) :
    (-(2 ^ 31) ≤ decExponent buf → decExponent buf ≤ 2 ^ 31 - 1 →
      2 ^ 31 - 1 < integerTokenValue (buf.drop (decFts buf)) →
      getInt32Pair (mkValue (some buf) cap) =
        ((if decExponent buf < 0 then ResultCode.APPROX_IMPRECISE
          else ResultCode.APPROX_EXTREME), 2 ^ 31 - 1, decExponent buf)) ∧
    (-(2 ^ 31) ≤ decExponent buf → decExponent buf ≤ 2 ^ 31 - 1 →
      integerTokenValue (buf.drop (decFts buf)) < -(2 ^ 31) →
      getInt32Pair (mkValue (some buf) cap) =
        ((if decExponent buf < 0 then ResultCode.APPROX_IMPRECISE
          else ResultCode.APPROX_EXTREME), -(2 ^ 31), decExponent buf)) ∧
    ((decExponent buf < -(2 ^ 31) ∨ 2 ^ 31 - 1 < decExponent buf) →
      getInt32Pair (mkValue (some buf) cap) =
        (ResultCode.UNSUPPORTED, 0, 0)) := by
  obtain ⟨hlt, hfts, hstruct⟩ := decimal_complete_structure buf cap hc hb1 hb2
  rcases hstruct with ⟨hgt, _⟩ | ⟨hle40, hsz⟩
  · omega
  · have hred := getInt32Pair_decimal_reduce buf cap hc hb1 hb2 (by omega)
    have hspec := getInt32PairTail_spec buf ((mkValue (some buf) cap).size)
      (decFts buf) (eAbsCode buf) rfl hsz hm1 hm2 (eAbsCode_spec buf)
    exact ⟨fun a b c => by rw [hred]; exact hspec.1 a b c,
      fun a b c => by rw [hred]; exact hspec.2.1 a b c,
      fun a => by rw [hred]; exact hspec.2.2 a⟩

/-- Witness for C3 at `[0xEF, 0x1B, 0xE8, 0xFE, 0xFE, 0x7E]`:
exponent `-8`, mantissa `2^31`: `APPROX_IMPRECISE` with clamped
mantissa and preserved exponent. -/
theorem C3_witness :
    getInt32Pair (mkValue (some [0xEF, 0x1B, 0xE8, 0xFE, 0xFE, 0x7E]) 6) =
      (ResultCode.APPROX_IMPRECISE, 2 ^ 31 - 1, -8) := by
  have h := (C3_getInt32Pair [0xEF, 0x1B, 0xE8, 0xFE, 0xFE, 0x7E] 6
    (by decide) (by decide) (by decide) (by decide) (by decide)).1
    (by decide) (by decide) (by decide)
  rw [h]
  decide

/-- Canonical quiet-NaN bit pattern of `std::numeric_limits<double>::quiet_NaN()`. -/
def qNaN64 : Nat := 0x7FF8000000000000

/-- `+Infinity` as an IEEE-754 binary64 pattern. -/
def infBits64 : Nat := 0x7FF0000000000000

/-- `-Infinity` as an IEEE-754 binary64 pattern. -/
def negInfBits64 : Nat := 0xFFF0000000000000

/-- `-0.0` (`-1.0 / infinity`) as an IEEE-754 binary64 pattern. -/
def minusZeroBits64 : Nat := 0x8000000000000000

/-- Canonical quiet-NaN bit pattern of `std::numeric_limits<float>::quiet_NaN()`. -/
def qNaN32 : Nat := 0x7FC00000

/-- `+Infinity` as an IEEE-754 binary32 pattern. -/
def infBits32 : Nat := 0x7F800000

/-- `-Infinity` as an IEEE-754 binary32 pattern. -/
def negInfBits32 : Nat := 0xFF800000

/-- `-0.0f` as an IEEE-754 binary32 pattern. -/
def minusZeroBits32 : Nat := 0x80000000

/-- The accumulation loop shared by the BinaryRational token decoders
(`Dbor/Encoding.cpp` lines 76-81 and 133-138): start from `p[k]` with
its sign bit stripped (`*p & 0x7F` is `% 128`), then fold `p[k-1]`
down to `p[0]` with `v = (v << 8) | *--p`. -/
def brRaw (p : List Nat) (k : Nat) : Nat :=
  (p.take k).foldr (fun b acc => acc * 256 + b) (p.getD k 0 % 128)

/-- `Encoding::decodeBinaryRationalTokenData32` (`Dbor/Encoding.cpp`
lines 68-122).  `*p & 0x80` is `p[k] / 128 % 2 = 1`;
`v << (19u - 6u*k)` is `* 2^(19 - 6k)`; `mantissaAligned >> 23u` is
`/ 2^23`; `& ((1ul << 23u) - 1u)` is `% 2^23`; the two `|` combine
disjoint bit ranges and become `+`. -/
def decodeBinaryRationalTokenData32 (p : List Nat) (k : Nat) : Nat :=
  let isNeg := p.getD k 0 / 128 % 2 = 1
  let v := brRaw p k
  let v2 :=
    if k < 3 then
      let mantissaAligned := v * 2 ^ (19 - 6 * k)
      let exp := mantissaAligned / 2 ^ 23 + 128 - 2 ^ (2 * (k + 1))
      mantissaAligned % 2 ^ 23 + exp * 2 ^ 23
    else v
  if isNeg then v2 + 2 ^ 31 else v2

/-- `Encoding::decodeBinaryRationalTokenData64` (`Dbor/Encoding.cpp`
lines 125-178), with the same bit-operation translations
(`v << (50u - 7u*k)`, `>> 52u`, `& ((1ull << 52u) - 1u)`,
`1u << (k + 4u)`, `|` on disjoint ranges). -/
def decodeBinaryRationalTokenData64 (p : List Nat) (k : Nat) : Nat :=
  let isNeg := p.getD k 0 / 128 % 2 = 1
  let v := brRaw p k
  let v2 :=
    if k < 7 then
      let mantissaAligned := v * 2 ^ (50 - 7 * k)
      let exp := mantissaAligned / 2 ^ 52 + 1024 - 2 ^ (k + 4)
      mantissaAligned % 2 ^ 52 + exp * 2 ^ 52
    else v
  if isNeg then v2 + 2 ^ 63 else v2

/-- `Encoding::convertBinaryRational32ToBinary64` (`Dbor/Encoding.cpp`
lines 181-200): `(value & 0x007FFFFF) << 29`, `(value >> 23) & 0xFF`,
`+ (1023 - 127)`, sign `value & 0x80000000` sets bit 11 of `e`,
`v |= e << 52` on disjoint ranges. -/
def convertBinaryRational32ToBinary64 (value : Nat) : Nat :=
  let v := value % 2 ^ 23 * 2 ^ 29
  let e := value / 2 ^ 23 % 2 ^ 8 + 896
  let e2 := if value / 2 ^ 31 % 2 = 1 then e + 2 ^ 11 else e
  v + e2 * 2 ^ 52

/-- `Encoding::decodeBinaryRationalTokenData` (`Dbor/Encoding.cpp`
lines 253-261). -/
def decodeBinaryRationalTokenData (p : List Nat) (k : Nat) : Nat :=
  if 4 ≤ k then decodeBinaryRationalTokenData64 p k
  else convertBinaryRational32ToBinary64 (decodeBinaryRationalTokenData32 p k)

/-- `Encoding::convertBinaryRational64ToBinary32` (`Dbor/Encoding.cpp`
lines 203-250), returning `(bits, absDir)`.  `value >> 52u` is
`/ 2^52`, `& 0x7FF` is `% 2^11`, `& 0x800u` is `/ 2^11 % 2`,
`(value >> 29u) & 0x7FFFFFu` is `/ 2^29 % 2^23`,
`value & ((1ul << 29u) - 1u)` is `% 2^29`, `mant |= 1ul << 23u` is
`+ 2^23`, `mant & ((1ul << h) - 1u)` is `% 2^h`, and the `|` with the
sign bit combines disjoint ranges. -/
def convertBinaryRational64ToBinary32 (value : Nat) : Nat × Int :=
  let expAndSign := value / 2 ^ 52
  let exp := expAndSign % 2 ^ 11
  let sign := if expAndSign / 2 ^ 11 % 2 = 1 then 2 ^ 31 else 0
  if 1023 + 127 < exp then (0x7F800000 + sign, 1)
  else
    let mant := value / 2 ^ 29 % 2 ^ 23
    let imprecise := value % 2 ^ 29 ≠ 0
    if 1023 - 126 ≤ exp then
      (sign + (mant + (exp - 896) * 2 ^ 23), if imprecise then -1 else 0)
    else
      let h := 1023 - 126 - exp
      if h < 24 then
        let mant2 := mant + 2 ^ 23
        ((sign + mant2 / 2 ^ h),
          if imprecise ∨ mant2 % 2 ^ h ≠ 0 then -1 else 0)
      else (sign, -1)

/-- `Value::get(double &)` (`Dbor/Value.cpp` lines 278-343).  The output
double is its 64-bit pattern; the code's `quiet_NaN()`, infinities and
`-0.0` are the corresponding patterns.  `(b & 0xF8) == 0xC8` is
`0xC8 ≤ b < 0xD0`; `v64 & ((1ull << 63) - 1)` is `% 2^63`;
`v64 & (1ull << 63)` is `/ 2^63 % 2 = 1`; `0x7FFull << 52u` is
`0x7FF * 2^52`. -/
def getDouble (v : ValueM) : ResultCode × Nat :=
  if v.isComplete ≠ true then (.INCOMPLETE, qNaN64)
  else
    let buf := v.buffer.getD []
    let b := buf.getD 0 0
    if 0xC8 ≤ b ∧ b < 0xD0 then
      let k := b % 8
      if v.size ≤ k then (.INCOMPLETE, qNaN64)
      else
        let v64 := decodeBinaryRationalTokenData (buf.drop 1) k
        if k = 7 then
          let v64WithoutSign := v64 % 2 ^ 63
          if v64WithoutSign = 0 then (.ILLFORMED, qNaN64)
          else if 0x7FF * 2 ^ 52 ≤ v64WithoutSign then
            (.APPROX_EXTREME,
              if v64 / 2 ^ 63 % 2 = 1 then negInfBits64 else infBits64)
          else (.OK, v64)
        else (.OK, v64)
    else if b = 0x00 then (.OK, 0)
    else if b = 0xFF then (.NO_OBJECT, qNaN64)
    else if b = 0xFC then (.OK, minusZeroBits64)
    else if b = 0xFD then (.OK, negInfBits64)
    else if b = 0xFE then (.OK, infBits64)
    else (.INCOMPATIBLE, qNaN64)

/-- `Value::get(float &)` (`Dbor/Value.cpp` lines 207-271), output as
its 32-bit pattern. -/
def getFloat (v : ValueM) : ResultCode × Nat :=
  if v.isComplete ≠ true then (.INCOMPLETE, qNaN32)
  else
    let buf := v.buffer.getD []
    let b := buf.getD 0 0
    if 0xC8 ≤ b ∧ b < 0xD0 then
      let k := b % 8
      if v.size ≤ k then (.INCOMPLETE, qNaN32)
      else
        let v64 := decodeBinaryRationalTokenData (buf.drop 1) k
        if k = 7 ∧ v64 % 2 ^ 63 = 0 then (.ILLFORMED, qNaN32)
        else
          let r := convertBinaryRational64ToBinary32 v64
          if 0 < r.2 then (.APPROX_EXTREME, r.1)
          else if r.2 < 0 then (.APPROX_IMPRECISE, r.1)
          else (.OK, r.1)
    else if b = 0x00 then (.OK, 0)
    else if b = 0xFF then (.NO_OBJECT, qNaN32)
    else if b = 0xFC then (.OK, minusZeroBits32)
    else if b = 0xFD then (.OK, negInfBits32)
    else if b = 0xFE then (.OK, infBits32)
    else (.INCOMPATIBLE, qNaN32)

/-- Mantissa width `p` of a BinaryRationalToken per the table of
spec §4.1. -/
def brPBits (k : Nat) : Nat :=
  match k with
  | 0 => 4
  | 1 => 10
  | 2 => 16
  | 3 => 23
  | 4 => 30
  | 5 => 37
  | 6 => 44
  | _ => 52

/-- Exponent bias of a BinaryRationalToken per the table of spec §4.1. -/
def brBias (k : Nat) : Nat :=
  match k with
  | 0 => 3
  | 1 => 15
  | 2 => 63
  | 3 => 127
  | 4 => 255
  | 5 => 511
  | _ => 1023

/-- Sign bit `s` of a BinaryRationalToken with payload `p[0..k]`. -/
def brFieldS (p : List Nat) (k : Nat) : Nat := p.getD k 0 / 128 % 2

/-- Exponent field `E` of a BinaryRationalToken. -/
def brFieldE (p : List Nat) (k : Nat) : Nat := brRaw p k / 2 ^ brPBits k

/-- Mantissa field `M` of a BinaryRationalToken. -/
def brFieldM (p : List Nat) (k : Nat) : Nat := brRaw p k % 2 ^ brPBits k

/-- The IEEE-754 binary64 pattern the decoder produces: sign `s`,
exponent field `E + 1023 - bias`, mantissa field `M · 2^(52 - p)`. -/
def brBits64 (p : List Nat) (k : Nat) : Nat :=
  brFieldS p k * 2 ^ 63 + (brFieldE p k + 1023 - brBias k) * 2 ^ 52 +
    brFieldM p k * 2 ^ (52 - brPBits k)

/-- The number `(-1)^s · (1 + M/2^p) · 2^(E - bias)` represented by a
BinaryRationalToken per spec §4.1, as
`(-1)^s · (2^p + M) · 2^E / 2^(p + bias)`. -/
def brFormulaValue (p : List Nat) (k : Nat) : ℚ :=
  (if brFieldS p k = 1 then -1 else 1) *
    ((2 ^ brPBits k + brFieldM p k : Nat) : ℚ) * 2 ^ brFieldE p k /
    2 ^ (brPBits k + brBias k)

/-- The rational value of a finite IEEE-754 binary64 bit pattern
(exponent field < 2047): subnormal `± m · 2^-1074` for zero exponent
field, else normal `± (2^52 + m) · 2^e / 2^1075`. -/
def interpB64 (w : Nat) : ℚ :=
  let s : Nat := w / 2 ^ 63 % 2
  let e : Nat := w / 2 ^ 52 % 2 ^ 11
  let m : Nat := w % 2 ^ 52
  let mag : ℚ :=
    if e = 0 then (m : ℚ) / 2 ^ 1074
    else ((2 ^ 52 + m : Nat) : ℚ) * 2 ^ e / 2 ^ 1075
  if s = 1 then -mag else mag

theorem foldr_le_init (l : List Nat) (a : Nat) :
    l.foldr (fun b acc => acc * 256 + b) a = leVal l + a * 256 ^ l.length := by
  induction l with
  | nil => simp [leVal]
  | cons b t ih =>
    simp only [List.foldr_cons, List.length_cons, ih, leVal]
    ring

theorem brRaw_lt (p : List Nat) (k : Nat) (hwf : BytesWF p) :
    brRaw p k < 2 ^ (7 + 8 * k) := by
  have h1 := leVal_lt (p.take k) (BytesWF_take p k hwf)
  have htop : p.getD k 0 % 128 ≤ 127 := by omega
  have hlen : (p.take k).length ≤ k := by
    simp [List.length_take]
  unfold brRaw
  rw [foldr_le_init]
  have hp : 0 < (256 : Nat) ^ (p.take k).length := Nat.pos_pow_of_pos _ (by norm_num)
  have h2 : (256 : Nat) ^ (p.take k).length ≤ 256 ^ k :=
    Nat.pow_le_pow_right (by norm_num) hlen
  have key : leVal (p.take k) + p.getD k 0 % 128 * 256 ^ (p.take k).length
      < 128 * 256 ^ (p.take k).length := by
    have h3 : p.getD k 0 % 128 * 256 ^ (p.take k).length
        ≤ 127 * 256 ^ (p.take k).length :=
      Nat.mul_le_mul_right _ htop
    omega
  calc leVal (p.take k) + p.getD k 0 % 128 * 256 ^ (p.take k).length
      < 128 * 256 ^ (p.take k).length := key
  _ ≤ 128 * 256 ^ k := by
      exact Nat.mul_le_mul_left _ h2
  _ = 2 ^ (7 + 8 * k) := by
      rw [show (256 : Nat) = 2 ^ 8 from rfl, show (128 : Nat) = 2 ^ 7 from rfl,
        ← pow_mul, ← pow_add]

theorem decodeBRTD32_fields (p : List Nat) (k : Nat) (hk : k < 4)
    (hwf : BytesWF p) :
    decodeBinaryRationalTokenData32 p k =
      brFieldS p k * 2 ^ 31 + (brFieldE p k + 127 - brBias k) * 2 ^ 23 +
        brFieldM p k * 2 ^ (23 - brPBits k) := by
  have hv := brRaw_lt p k hwf
  have hs2 : p.getD k 0 / 128 % 2 = 0 ∨ p.getD k 0 / 128 % 2 = 1 := by omega
  interval_cases k <;>
    simp only [decodeBinaryRationalTokenData32, brFieldS, brFieldE, brFieldM,
      brPBits, brBias] at hv ⊢ <;>
    rcases hs2 with hs2 | hs2 <;>
    rw [hs2] <;> simp <;> omega

theorem convertBR32To64_fields (x : Nat) :
    convertBinaryRational32ToBinary64 x =
      x / 2 ^ 31 % 2 * 2 ^ 63 + (x / 2 ^ 23 % 2 ^ 8 + 896) * 2 ^ 52 +
        x % 2 ^ 23 * 2 ^ 29 := by
  simp only [convertBinaryRational32ToBinary64]
  by_cases hb : x / 2 ^ 31 % 2 = 1
  · rw [if_pos hb, hb]
    omega
  · rw [if_neg hb]
    have h0 : x / 2 ^ 31 % 2 = 0 := by omega
    rw [h0]
    omega

theorem decodeBRTD64_fields (p : List Nat) (k : Nat) (hk4 : 4 ≤ k)
    (hk : k < 8) (hwf : BytesWF p) :
    decodeBinaryRationalTokenData64 p k = brBits64 p k := by
  have hv := brRaw_lt p k hwf
  have hs2 : p.getD k 0 / 128 % 2 = 0 ∨ p.getD k 0 / 128 % 2 = 1 := by omega
  interval_cases k <;>
    simp only [decodeBinaryRationalTokenData64, brBits64, brFieldS, brFieldE,
      brFieldM, brPBits, brBias] at hv ⊢ <;>
    rcases hs2 with hs2 | hs2 <;>
    rw [hs2] <;> simp <;> omega

/-- The decoder output as an IEEE-754 binary64 pattern with realigned
fields, for every `k < 8`. -/
theorem decodeBRTD_fields (p : List Nat) (k : Nat) (hk : k < 8)
    (hwf : BytesWF p) :
    decodeBinaryRationalTokenData p k = brBits64 p k := by
  by_cases h4 : 4 ≤ k
  · simp only [decodeBinaryRationalTokenData, if_pos h4]
    exact decodeBRTD64_fields p k h4 hk hwf
  · simp only [decodeBinaryRationalTokenData, if_neg h4]
    rw [decodeBRTD32_fields p k (by omega) hwf, convertBR32To64_fields]
    have hv := brRaw_lt p k hwf
    interval_cases k <;>
      simp only [brBits64, brFieldS, brFieldE, brFieldM, brPBits, brBias]
        at hv ⊢ <;>
      omega

/-- A complete BinaryRationalValue has view size `2 + k`. -/
theorem br_complete (buf : List Nat) (cap k : Nat)
    (hc : (mkValue (some buf) cap).isComplete = true)
    (hb : buf.getD 0 0 = 0xC8 + k) (hk : k < 8) :
    (mkValue (some buf) cap).size = 2 + k ∧ 2 + k ≤ cap ∧
    (mkValue (some buf) cap).buffer = some buf := by
  obtain ⟨hsz, hne, hle, hpos, hbuf⟩ := mkValue_complete buf cap hc
  have hval : sizeOfValueIn buf cap = 2 + k := by
    simp only [sizeOfValueIn, if_neg (show ¬ cap = 0 by omega)]
    rw [if_pos (Or.inr (Or.inr ⟨by omega, by omega⟩))]
    unfold sizeOfTokenFromFirstByte
    rw [if_neg (by omega), hb]
    omega
  rw [hval] at hsz hle
  exact ⟨hsz, by omega, hbuf⟩

theorem interpB64_of_fields (s E2 M2 : Nat) (hs : s < 2) (hE : E2 < 2 ^ 11)
    (hM : M2 < 2 ^ 52) :
    interpB64 (s * 2 ^ 63 + E2 * 2 ^ 52 + M2) =
      (if s = 1 then (-1 : ℚ) else 1) *
        (if E2 = 0 then (M2 : ℚ) / 2 ^ 1074
         else ((2 ^ 52 + M2 : Nat) : ℚ) * 2 ^ E2 / 2 ^ 1075) := by
  have h1 : (s * 2 ^ 63 + E2 * 2 ^ 52 + M2) / 2 ^ 63 % 2 = s := by omega
  have h2 : (s * 2 ^ 63 + E2 * 2 ^ 52 + M2) / 2 ^ 52 % 2 ^ 11 = E2 := by omega
  have h3 : (s * 2 ^ 63 + E2 * 2 ^ 52 + M2) % 2 ^ 52 = M2 := by omega
  simp only [interpB64, h1, h2, h3]
  by_cases hs1 : s = 1 <;> by_cases hE0 : E2 = 0 <;>
    simp [hs1, hE0]

theorem brFieldM_lt (p : List Nat) (k : Nat) :
    brFieldM p k < 2 ^ brPBits k := by
  unfold brFieldM
  exact Nat.mod_lt _ (Nat.pos_pow_of_pos _ (by norm_num))

theorem brFieldS_lt (p : List Nat) (k : Nat) : brFieldS p k < 2 := by
  unfold brFieldS
  omega

/-- When the realigned exponent field is neither 0 nor 2047, the pattern
represents exactly the value of the spec formula. -/
theorem brBits64_value (p : List Nat) (k : Nat) (hk : k < 8)
    (hEpos : 0 < brFieldE p k + 1023 - brBias k)
    (hElt : brFieldE p k + 1023 - brBias k < 2047) :
    interpB64 (brBits64 p k) = brFormulaValue p k := by
  have hM := brFieldM_lt p k
  have hS := brFieldS_lt p k
  have hbias : brBias k ≤ 1023 := by
    unfold brBias
    interval_cases k <;> simp
  have hp52 : brPBits k ≤ 52 := by
    unfold brPBits
    interval_cases k <;> simp
  have hM2 : brFieldM p k * 2 ^ (52 - brPBits k) < 2 ^ 52 := by
    calc brFieldM p k * 2 ^ (52 - brPBits k)
        < 2 ^ brPBits k * 2 ^ (52 - brPBits k) :=
          (Nat.mul_lt_mul_right (Nat.pos_pow_of_pos _ (by norm_num))).mpr hM
    _ = 2 ^ 52 := by
        rw [← pow_add]
        congr 1
        omega
  rw [brBits64, interpB64_of_fields (brFieldS p k)
    (brFieldE p k + 1023 - brBias k) (brFieldM p k * 2 ^ (52 - brPBits k))
    hS (by omega) hM2]
  rw [if_neg (show ¬ brFieldE p k + 1023 - brBias k = 0 by omega)]
  unfold brFormulaValue
  have hsplit : brFieldE p k + 1023 - brBias k =
      brFieldE p k + (1023 - brBias k) := by omega
  rw [hsplit, pow_add]
  push_cast
  rw [show ((if brFieldS p k = 1 then (-1 : ℚ) else 1) *
      (2 ^ brPBits k + (brFieldM p k : ℚ)) * 2 ^ brFieldE p k /
      2 ^ (brPBits k + brBias k)) =
      ((if brFieldS p k = 1 then (-1 : ℚ) else 1) *
        ((2 ^ brPBits k + (brFieldM p k : ℚ)) * 2 ^ brFieldE p k /
          2 ^ (brPBits k + brBias k))) from by ring]
  congr 1
  rw [div_eq_div_iff (by positivity) (by positivity)]
  rw [show (4503599627370496 : ℚ) = 2 ^ (52 : Nat) from by norm_num]
  have hexp : (2 : ℚ) ^ (52 : Nat) = 2 ^ brPBits k * 2 ^ (52 - brPBits k) := by
    rw [← pow_add]
    congr 1
    omega
  rw [hexp]
  have e2 : (2 : ℚ) ^ (52 - brPBits k) * (2 : ℚ) ^ (1023 - brBias k) *
      (2 : ℚ) ^ (brPBits k + brBias k) = 2 ^ 1075 := by
    rw [← pow_add, ← pow_add]
    congr 1
    omega
  calc ((2 : ℚ) ^ brPBits k * 2 ^ (52 - brPBits k) +
        (brFieldM p k : ℚ) * 2 ^ (52 - brPBits k)) *
        ((2 : ℚ) ^ brFieldE p k * 2 ^ (1023 - brBias k)) *
        2 ^ (brPBits k + brBias k)
      = ((2 : ℚ) ^ brPBits k + (brFieldM p k : ℚ)) * 2 ^ brFieldE p k *
        ((2 : ℚ) ^ (52 - brPBits k) * (2 : ℚ) ^ (1023 - brBias k) *
          (2 : ℚ) ^ (brPBits k + brBias k)) := by ring
  _ = ((2 : ℚ) ^ brPBits k + (brFieldM p k : ℚ)) * 2 ^ brFieldE p k *
        2 ^ 1075 := by rw [e2]

/-- `Value::get(double &)` on a complete BinaryRationalValue reduces to
the realigned pattern and the `k = 7` special cases. -/
theorem getDouble_br_reduce (buf : List Nat) (cap k : Nat)
    (hwf : BytesWF buf)
    (hc : (mkValue (some buf) cap).isComplete = true)
    (hb : buf.getD 0 0 = 0xC8 + k) (hk : k < 8) :
    getDouble (mkValue (some buf) cap) =
      (if k = 7 then
        (if brBits64 (buf.drop 1) 7 % 2 ^ 63 = 0 then
          (ResultCode.ILLFORMED, qNaN64)
         else if 0x7FF * 2 ^ 52 ≤ brBits64 (buf.drop 1) 7 % 2 ^ 63 then
          (ResultCode.APPROX_EXTREME,
            if brBits64 (buf.drop 1) 7 / 2 ^ 63 % 2 = 1 then negInfBits64
            else infBits64)
         else (ResultCode.OK, brBits64 (buf.drop 1) 7))
       else (ResultCode.OK, brBits64 (buf.drop 1) k)) := by
  obtain ⟨hsz, hcap, hbuf⟩ := br_complete buf cap k hc hb hk
  have hbk : buf.getD 0 0 % 8 = k := by
    rw [hb]
    omega
  have hfields := decodeBRTD_fields (buf.drop 1) k hk (BytesWF_drop buf 1 hwf)
  simp only [getDouble]
  rw [if_neg (by simp [hc]), hbuf]
  simp only [Option.getD_some]
  rw [if_pos (show 0xC8 ≤ buf.getD 0 0 ∧ buf.getD 0 0 < 0xD0 by omega)]
  simp only [hbk, hsz, hfields]
  rw [if_neg (show ¬ 2 + k ≤ k by omega)]
  by_cases hk7 : k = 7
  · subst hk7
    rfl
  · rw [if_neg hk7, if_neg hk7]

/-- C2 counterexample: on the complete BinaryRationalValue
`[0xCF, 0x01, 0, 0, 0, 0, 0, 0, 0]` (`k = 7`, `s = 0`, `E = 0`,
`M = 1`) the getter returns `OK` with the pattern `1`, an IEEE-754
subnormal of value `2^-1074`, which is not the value
`(1 + 2^-52) · 2^(0 - 1023)` of the spec formula. -/
theorem C2_counterexample :
    getDouble
        (mkValue (some [0xCF, 0x01, 0x00, 0x00, 0x00, 0x00, 0x00, 0x00, 0x00])
          9) = (ResultCode.OK, 1) ∧
    interpB64 1 ≠
      brFormulaValue [0x01, 0x00, 0x00, 0x00, 0x00, 0x00, 0x00, 0x00] 7 := by
  constructor
  · decide
  · have h1 : interpB64 1 = 1 / 2 ^ 1074 := by
      norm_num [interpB64]
    have hS : brFieldS [0x01, 0x00, 0x00, 0x00, 0x00, 0x00, 0x00, 0x00] 7 = 0 := by
      decide
    have hE : brFieldE [0x01, 0x00, 0x00, 0x00, 0x00, 0x00, 0x00, 0x00] 7 = 0 := by
      decide
    have hM : brFieldM [0x01, 0x00, 0x00, 0x00, 0x00, 0x00, 0x00, 0x00] 7 = 1 := by
      decide
    rw [h1]
    unfold brFormulaValue
    rw [hS, hE, hM]
    simp only [brPBits, brBias]
    norm_num

/-- C2 amended: for every complete BinaryRationalValue `0xC8 + k` with
sign `s`, exponent field `E` and mantissa field `M`: `k = 7` with all
non-sign bits zero is `ILLFORMED` (output NaN); `k = 7` with `E = 2047`
is `APPROX_EXTREME` with `±Infinity` by `s`; otherwise the getter
returns `OK` with the realigned binary64 pattern
`(s, E + 1023 - bias_k, M · 2^(52-p_k))`; whenever that exponent field
lies strictly between 0 and 2047 the returned double equals
`(-1)^s (1 + M/2^p) 2^(E - bias)` exactly, and when it is 0 (possible
for `k ∈ {6,7}`) the returned double is the IEEE subnormal
`(-1)^s · M · 2^(52-p) · 2^-1074` instead. -/
theorem C2_getDouble (buf : List Nat) (cap k : Nat)
    (hwf : BytesWF buf)
    (hc : (mkValue (some buf) cap).isComplete = true)
    (hb : buf.getD 0 0 = 0xC8 + k) (hk : k < 8) :
    (k = 7 → brRaw (buf.drop 1) 7 = 0 →
      getDouble (mkValue (some buf) cap) = (ResultCode.ILLFORMED, qNaN64)) ∧
    (k = 7 → brFieldE (buf.drop 1) 7 = 2047 →
      getDouble (mkValue (some buf) cap) =
        (ResultCode.APPROX_EXTREME,
          if brFieldS (buf.drop 1) 7 = 1 then negInfBits64 else infBits64)) ∧
    (¬ (k = 7 ∧ (brRaw (buf.drop 1) k = 0 ∨ brFieldE (buf.drop 1) k = 2047)) →
      getDouble (mkValue (some buf) cap) =
        (ResultCode.OK, brBits64 (buf.drop 1) k)) ∧
    (0 < brFieldE (buf.drop 1) k + 1023 - brBias k →
      brFieldE (buf.drop 1) k + 1023 - brBias k < 2047 →
      interpB64 (brBits64 (buf.drop 1) k) = brFormulaValue (buf.drop 1) k) ∧
    (brFieldE (buf.drop 1) k + 1023 - brBias k = 0 →
      interpB64 (brBits64 (buf.drop 1) k) =
        (if brFieldS (buf.drop 1) k = 1 then (-1 : ℚ) else 1) *
          ((brFieldM (buf.drop 1) k * 2 ^ (52 - brPBits k) : Nat) : ℚ) /
          2 ^ 1074) := by
  have hred := getDouble_br_reduce buf cap k hwf hc hb hk
  have hwf1 : BytesWF (buf.drop 1) := BytesWF_drop buf 1 hwf
  have hS := brFieldS_lt (buf.drop 1) k
  have hM := brFieldM_lt (buf.drop 1) k
  have hraw := brRaw_lt (buf.drop 1) k hwf1
  refine ⟨?_, ?_, ?_, ?_, ?_⟩
  · intro hk7 h0
    subst hk7
    have hE0 : brFieldE (buf.drop 1) 7 = 0 := by
      unfold brFieldE
      rw [h0]
      simp
    have hM0 : brFieldM (buf.drop 1) 7 = 0 := by
      unfold brFieldM
      rw [h0]
      simp
    have hz : brBits64 (buf.drop 1) 7 % 2 ^ 63 = 0 := by
      have hS7 := brFieldS_lt (buf.drop 1) 7
      simp only [brBits64, hE0, hM0, show brPBits 7 = 52 from rfl,
        show brBias 7 = 1023 from rfl]
      omega
    rw [hred, if_pos rfl, if_pos hz]
  · intro hk7 hE
    subst hk7
    have hS7 := brFieldS_lt (buf.drop 1) 7
    have hM7 := brFieldM_lt (buf.drop 1) 7
    rw [show brPBits 7 = 52 from rfl] at hM7
    have hmod : brBits64 (buf.drop 1) 7 % 2 ^ 63 =
        2047 * 2 ^ 52 + brFieldM (buf.drop 1) 7 := by
      simp only [brBits64, hE, show brPBits 7 = 52 from rfl,
        show brBias 7 = 1023 from rfl]
      omega
    have hdiv : brBits64 (buf.drop 1) 7 / 2 ^ 63 % 2 = brFieldS (buf.drop 1) 7 := by
      simp only [brBits64, hE, show brPBits 7 = 52 from rfl,
        show brBias 7 = 1023 from rfl]
      omega
    rw [hred, if_pos rfl, if_neg (by omega), if_pos (by omega), hdiv]
  · intro hnot
    rw [hred]
    by_cases hk7 : k = 7
    · subst hk7
      push_neg at hnot
      obtain ⟨h0, hE⟩ := hnot rfl
      have hS7 := brFieldS_lt (buf.drop 1) 7
      have hM7 := brFieldM_lt (buf.drop 1) 7
      rw [show brPBits 7 = 52 from rfl] at hM7
      have hEM : brRaw (buf.drop 1) 7 =
          brFieldE (buf.drop 1) 7 * 2 ^ 52 + brFieldM (buf.drop 1) 7 := by
        simp only [brFieldE, brFieldM, show brPBits 7 = 52 from rfl]
        omega
      have hEbound : brFieldE (buf.drop 1) 7 < 2 ^ 11 := by
        simp only [brFieldE, show brPBits 7 = 52 from rfl]
        have : brRaw (buf.drop 1) 7 < 2 ^ 63 := by
          have := brRaw_lt (buf.drop 1) 7 hwf1
          omega
        omega
      have hmod : brBits64 (buf.drop 1) 7 % 2 ^ 63 =
          brFieldE (buf.drop 1) 7 * 2 ^ 52 + brFieldM (buf.drop 1) 7 := by
        simp only [brBits64, show brPBits 7 = 52 from rfl,
          show brBias 7 = 1023 from rfl]
        omega
      rw [if_pos rfl, if_neg (by omega), if_neg (by omega)]
    · rw [if_neg hk7]
  · intro h1 h2
    exact brBits64_value (buf.drop 1) k hk h1 h2
  · intro hE0
    have hbias : brBias k ≤ 1023 := by
      unfold brBias
      interval_cases k <;> simp
    have hp52 : brPBits k ≤ 52 := by
      unfold brPBits
      interval_cases k <;> simp
    have hM2 : brFieldM (buf.drop 1) k * 2 ^ (52 - brPBits k) < 2 ^ 52 := by
      calc brFieldM (buf.drop 1) k * 2 ^ (52 - brPBits k)
          < 2 ^ brPBits k * 2 ^ (52 - brPBits k) :=
            (Nat.mul_lt_mul_right (Nat.pos_pow_of_pos _ (by norm_num))).mpr hM
      _ = 2 ^ 52 := by
          rw [← pow_add]
          congr 1
          omega
    have hb0 : brBits64 (buf.drop 1) k =
        brFieldS (buf.drop 1) k * 2 ^ 63 + 0 * 2 ^ 52 +
          brFieldM (buf.drop 1) k * 2 ^ (52 - brPBits k) := by
      unfold brBits64
      rw [hE0]
    rw [hb0, interpB64_of_fields _ _ _ hS (by norm_num) hM2]
    rw [if_pos rfl]
    push_cast
    ring

/-- Witness for C2 at the value `[0xC8, 0x00]` (`k = 0`, representing
`0.125`): `OK` with the realigned pattern, whose value equals the spec
formula. -/
theorem C2_witness :
    getDouble (mkValue (some [0xC8, 0x00]) 2) =
      (ResultCode.OK, brBits64 ([0xC8, 0x00].drop 1) 0) ∧
    interpB64 (brBits64 ([0xC8, 0x00].drop 1) 0) =
      brFormulaValue ([0xC8, 0x00].drop 1) 0 := by
  have h := C2_getDouble [0xC8, 0x00] 2 0 (by decide) (by decide) (by decide)
    (by decide)
  exact ⟨h.2.2.1 (by decide), h.2.2.2.1 (by decide) (by decide)⟩

/-- `Value::get(const std::uint8_t *&bytes, std::size_t &stringSize)`
(`Dbor/Value.cpp` lines 472-493), output `(bytes, stringSize)`. -/
def getByteString (v : ValueM) : ResultCode × Option (List Nat) × Nat :=
  if v.isComplete ≠ true then (.INCOMPLETE, none, 0)
  else
    let buf := v.buffer.getD []
    let b := buf.getD 0 0
    if b = 0xFF then (.NO_OBJECT, none, 0)
    else if b < 0x40 ∨ 0x60 ≤ b then (.INCOMPATIBLE, none, 0)
    else
      let sft := sizeOfTokenFromFirstByte b
      if v.size < sft then (.INCOMPLETE, none, 0)
      else (.OK, some (buf.drop sft), v.size - sft)

theorem getIntegerIn_defaults (lo hi : Int) (p : List Nat) (size : Nat)
    (h1 : (getIntegerIn lo hi p size).1 ≠ ResultCode.OK)
    (h2 : (getIntegerIn lo hi p size).1 ≠ ResultCode.APPROX_IMPRECISE)
    (h3 : (getIntegerIn lo hi p size).1 ≠ ResultCode.APPROX_EXTREME) :
    (getIntegerIn lo hi p size).2 = 0 := by
  simp only [getIntegerIn] at *
  split_ifs at * <;> simp_all

set_option maxHeartbeats 1600000 in
theorem getFloat_defaults (v : ValueM)
    (h1 : (getFloat v).1 ≠ ResultCode.OK)
    (h2 : (getFloat v).1 ≠ ResultCode.APPROX_IMPRECISE)
    (h3 : (getFloat v).1 ≠ ResultCode.APPROX_EXTREME) :
    (getFloat v).2 = qNaN32 := by
  simp only [getFloat] at *
  split_ifs at * <;> simp_all

set_option maxHeartbeats 1600000 in
theorem getDouble_defaults (v : ValueM)
    (h1 : (getDouble v).1 ≠ ResultCode.OK)
    (h2 : (getDouble v).1 ≠ ResultCode.APPROX_IMPRECISE)
    (h3 : (getDouble v).1 ≠ ResultCode.APPROX_EXTREME) :
    (getDouble v).2 = qNaN64 := by
  simp only [getDouble] at *
  split_ifs at * <;> simp_all

theorem getByteString_defaults (v : ValueM)
    (h1 : (getByteString v).1 ≠ ResultCode.OK)
    (h2 : (getByteString v).1 ≠ ResultCode.APPROX_IMPRECISE)
    (h3 : (getByteString v).1 ≠ ResultCode.APPROX_EXTREME) :
    (getByteString v).2.1 = none ∧ (getByteString v).2.2 = 0 := by
  simp only [getByteString] at *
  split_ifs at * <;> simp_all

theorem getString_defaults (v : ValueM) (maxSize : Nat)
    (h1 : (getString v maxSize).1 ≠ ResultCode.OK)
    (h2 : (getString v maxSize).1 ≠ ResultCode.APPROX_IMPRECISE)
    (h3 : (getString v maxSize).1 ≠ ResultCode.APPROX_EXTREME) :
    (getString v maxSize).2 = stringDefault := by
  simp only [getString] at *
  split_ifs at * <;> simp_all

theorem getInt32PairTail_defaults (buf : List Nat) (size eAbs fts b : Nat)
    (hsz : ¬ size ≤ fts → buf.getD fts 0 ≠ 0 → buf.getD fts 0 < 0x40 →
      size = fts + sizeOfTokenFromFirstByte (buf.getD fts 0))
    (h1 : (getInt32PairTail buf size eAbs fts b).1 ≠ ResultCode.OK)
    (h2 : (getInt32PairTail buf size eAbs fts b).1 ≠ ResultCode.APPROX_IMPRECISE)
    (h3 : (getInt32PairTail buf size eAbs fts b).1 ≠ ResultCode.APPROX_EXTREME) :
    (getInt32PairTail buf size eAbs fts b).2.1 = 0 ∧
    (getInt32PairTail buf size eAbs fts b).2.2 = 0 := by
  by_cases hill : size ≤ fts ∨ buf.getD fts 0 = 0 ∨ 0x40 ≤ buf.getD fts 0
  · simp only [getInt32PairTail, if_pos hill]
    exact ⟨by trivial, by trivial⟩
  · push_neg at hill
    obtain ⟨ha, hb2, hc2⟩ := hill
    have hsize := hsz (by omega) hb2 (by omega)
    have hdg : (buf.drop fts).getD 0 0 = buf.getD fts 0 := by
      rw [getD_drop, Nat.add_zero]
    have hrm := getIntegerIn_token (-(2 ^ 31)) (2 ^ 31 - 1) (buf.drop fts)
      (size - fts) (by rw [hdg]; omega) (by rw [hdg]; omega)
    simp only [getInt32PairTail,
      if_neg (show ¬ (size ≤ fts ∨ buf.getD fts 0 = 0 ∨
        0x40 ≤ buf.getD fts 0) by push_neg; exact ⟨ha, hb2, hc2⟩),
      hrm] at h1 h2 h3 ⊢
    split_ifs at h1 h2 h3 ⊢ <;> simp_all

theorem getInt32Pair_defaults (bo : Option (List Nat)) (cap : Nat)
    (h1 : (getInt32Pair (mkValue bo cap)).1 ≠ ResultCode.OK)
    (h2 : (getInt32Pair (mkValue bo cap)).1 ≠ ResultCode.APPROX_IMPRECISE)
    (h3 : (getInt32Pair (mkValue bo cap)).1 ≠ ResultCode.APPROX_EXTREME) :
    (getInt32Pair (mkValue bo cap)).2.1 = 0 ∧
    (getInt32Pair (mkValue bo cap)).2.2 = 0 := by
  cases bo with
  | none => exact ⟨rfl, rfl⟩
  | some buf =>
    by_cases hcisC : (mkValue (some buf) cap).isComplete = true
    · have hbuf := (mkValue_complete buf cap hcisC).2.2.2.2
      by_cases hdec : 0xD0 ≤ buf.getD 0 0 ∧ buf.getD 0 0 < 0xF0
      · -- DecimalRationalValue: reduce to the tail
        obtain ⟨hlt, hfts, hstruct⟩ :=
          decimal_complete_structure buf cap hcisC hdec.1 hdec.2
        have hsge : decFts buf ≤ (mkValue (some buf) cap).size := by
          have htok := sizeOfTokenFromFirstByte_pos (buf.getD (decFts buf) 0)
          rcases hstruct with ⟨_, he⟩ | ⟨_, he⟩ <;> omega
        rw [getInt32Pair_decimal_reduce buf cap hcisC hdec.1 hdec.2 hsge]
          at h1 h2 h3 ⊢
        refine getInt32PairTail_defaults buf _ _ _ _ ?_ h1 h2 h3
        intro hnle hnz hlt40
        rcases hstruct with ⟨_, he⟩ | ⟨_, he⟩
        · omega
        · exact he
      · -- all other first bytes
        simp only [getInt32Pair, hbuf, Option.getD_some,
          if_neg (show ¬ (mkValue (some buf) cap).isComplete ≠ true by
            simp [hcisC])] at h1 h2 h3 ⊢
        by_cases hA : buf.getD 0 0 < 0x40
        · rw [if_pos hA] at h1 h2 h3 ⊢
          refine ⟨?_, rfl⟩
          by_cases hAE : (getIntegerIn (-(2 ^ 31)) (2 ^ 31 - 1) buf
              (mkValue (some buf) cap).size).1 = ResultCode.APPROX_EXTREME
          · rw [if_pos hAE] at h2
            simp at h2
          · rw [if_neg hAE] at h1 h2
            exact getIntegerIn_defaults _ _ _ _ h1 h2 hAE
        · rw [if_neg hA] at h1 h2 h3 ⊢
          by_cases hD : buf.getD 0 0 < 0xD0
          · rw [if_pos hD] at h1 h2 h3 ⊢
            exact ⟨by trivial, by trivial⟩
          · rw [if_neg hD] at h1 h2 h3 ⊢
            rw [if_pos (show 0xF0 ≤ buf.getD 0 0 by omega)] at h1 h2 h3 ⊢
            split_ifs at h1 h2 h3 ⊢ <;> simp_all
    · have hcis : (mkValue (some buf) cap).isComplete ≠ true := hcisC
      simp only [getInt32Pair, if_pos hcis]
      exact ⟨by trivial, by trivial⟩

/-- C9 counterexample: `Value::get(double &)` on the complete
BinaryRationalValue `[0xCF, 0, 0, 0, 0, 0, 0, 0xF0, 0x7F]` (`k = 7`,
saturated exponent) returns the non-OK code `APPROX_EXTREME` with the
output set to `+Infinity`, not to the NaN default. -/
theorem C9_counterexample :
    getDouble
        (mkValue (some [0xCF, 0x00, 0x00, 0x00, 0x00, 0x00, 0x00, 0xF0, 0x7F])
          9) = (ResultCode.APPROX_EXTREME, infBits64) ∧
    ResultCode.APPROX_EXTREME ≠ ResultCode.OK ∧
    infBits64 ≠ qNaN64 := by
  refine ⟨by decide, by decide, by decide⟩

/-- C9 amended: for every getter, whenever the result code is neither
`OK` nor `APPROX_IMPRECISE` nor `APPROX_EXTREME`, every output
parameter equals the target type's default: 0 for the integer getters
and for the decimal `(mant, exp10)` pair, the quiet-NaN pattern for
`float` and `double`, and a null/empty view for the byte-string and
`String` getters.  (For `APPROX_*` results the outputs are clamped or
rounded approximations instead.) -/
theorem C9_nonOk_defaults :
    (∀ (lo hi : Int) (p : List Nat) (size : Nat),
      (getIntegerIn lo hi p size).1 ≠ ResultCode.OK →
      (getIntegerIn lo hi p size).1 ≠ ResultCode.APPROX_IMPRECISE →
      (getIntegerIn lo hi p size).1 ≠ ResultCode.APPROX_EXTREME →
      (getIntegerIn lo hi p size).2 = 0) ∧
    (∀ v : ValueM,
      (getFloat v).1 ≠ ResultCode.OK →
      (getFloat v).1 ≠ ResultCode.APPROX_IMPRECISE →
      (getFloat v).1 ≠ ResultCode.APPROX_EXTREME →
      (getFloat v).2 = qNaN32) ∧
    (∀ v : ValueM,
      (getDouble v).1 ≠ ResultCode.OK →
      (getDouble v).1 ≠ ResultCode.APPROX_IMPRECISE →
      (getDouble v).1 ≠ ResultCode.APPROX_EXTREME →
      (getDouble v).2 = qNaN64) ∧
    (∀ (bo : Option (List Nat)) (cap : Nat),
      (getInt32Pair (mkValue bo cap)).1 ≠ ResultCode.OK →
      (getInt32Pair (mkValue bo cap)).1 ≠ ResultCode.APPROX_IMPRECISE →
      (getInt32Pair (mkValue bo cap)).1 ≠ ResultCode.APPROX_EXTREME →
      (getInt32Pair (mkValue bo cap)).2.1 = 0 ∧
      (getInt32Pair (mkValue bo cap)).2.2 = 0) ∧
    (∀ v : ValueM,
      (getByteString v).1 ≠ ResultCode.OK →
      (getByteString v).1 ≠ ResultCode.APPROX_IMPRECISE →
      (getByteString v).1 ≠ ResultCode.APPROX_EXTREME →
      (getByteString v).2.1 = none ∧ (getByteString v).2.2 = 0) ∧
    (∀ (v : ValueM) (maxSize : Nat),
      (getString v maxSize).1 ≠ ResultCode.OK →
      (getString v maxSize).1 ≠ ResultCode.APPROX_IMPRECISE →
      (getString v maxSize).1 ≠ ResultCode.APPROX_EXTREME →
      (getString v maxSize).2 = stringDefault) :=
  ⟨getIntegerIn_defaults, getFloat_defaults, getDouble_defaults,
    getInt32Pair_defaults, getByteString_defaults, getString_defaults⟩

/-- Witness for C9 at concrete inputs: the default (incomplete) value
yields `INCOMPLETE` with default outputs for `double` and the decimal
pair. -/
theorem C9_witness :
    (getDouble valueDefault).2 = qNaN64 ∧
    (getInt32Pair (mkValue none 0)).2.1 = 0 ∧
    (getInt32Pair (mkValue none 0)).2.2 = 0 := by
  refine ⟨C9_nonOk_defaults.2.2.1 valueDefault (by decide) (by decide)
    (by decide), ?_, ?_⟩
  · exact (C9_nonOk_defaults.2.2.2.1 none 0 (by decide) (by decide)
      (by decide)).1
  · exact (C9_nonOk_defaults.2.2.2.1 none 0 (by decide) (by decide)
      (by decide)).2

end Dbor
